import Mathlib

/-!
Verification of the HausAufgaben core: the ICS task store (subtask codec,
hint normalization, property extraction, file update protocol) and the
reference-data resolver (StammDaten).  JavaScript strings are modelled as
`List Char`; the JS string primitives used by the source (trim, split,
replace, startsWith, indexOf, toUpperCase) are modelled below with the
ECMAScript whitespace class.  `String.prototype.normalize("NFKC")` is a
Unicode library call outside the repository; it is modelled as an abstract
parameter `nfkc : Str → Str` threaded through the task-store functions.
-/

namespace HausAufgaben

abbrev Str := List Char

/-- ECMAScript `\s` (WhiteSpace and LineTerminator) character class:
TAB, LF, VT, FF, CR, SP, NBSP, OGHAM SP, U+2000-200A, LS, PS, NNBSP,
MMSP, IDSP, ZWNBSP. -/
def isJsWs (c : Char) : Bool :=
  c = ' ' || c = '\t' || c = '\n' || c = '\r' ||
  c.val = 0x0b || c.val = 0x0c || c.val = 0xa0 || c.val = 0x1680 ||
  (0x2000 <= c.val && c.val <= 0x200a) || c.val = 0x2028 || c.val = 0x2029 ||
  c.val = 0x202f || c.val = 0x205f || c.val = 0x3000 || c.val = 0xfeff

/-- The control-character class replaced by `normalizeHinweis`:
the JS regex `[\u0000-\u001F\u007F]`. -/
def isJsControl (c : Char) : Bool :=
  c.val ≤ 0x1f || c.val = 0x7f

/-- Models `String.prototype.startsWith` on char lists. -/
def leadsWith : Str → Str → Bool
  | [], _ => true
  | _ :: _, [] => false
  | a :: as, b :: bs => a = b && leadsWith as bs

/-- Whether `pat` occurs as a contiguous substring of `s`
(`String.prototype.includes`). -/
def hasSub (pat : Str) : Str → Bool
  | [] => leadsWith pat []
  | c :: t => leadsWith pat (c :: t) || hasSub pat t

/-- Whether `s` contains two adjacent whitespace characters (used to state
that collapsed strings have no whitespace runs). -/
def hasWsPair : Str → Bool
  | a :: b :: t => (isJsWs a && isJsWs b) || hasWsPair (b :: t)
  | _ => false

/-- Models `String.prototype.indexOf` (first occurrence), as an `Option`
(JS returns `-1` for no occurrence). -/
def subIdx (pat : Str) : Str → Option Nat
  | [] => if leadsWith pat [] then some 0 else none
  | c :: t =>
    if leadsWith pat (c :: t) then some 0
    else (subIdx pat t).map (· + 1)

/-- Models `String.prototype.trimEnd` (drop trailing JS whitespace). -/
def jsTrimEnd : Str → Str
  | [] => []
  | c :: t =>
    match jsTrimEnd t with
    | [] => if isJsWs c then [] else [c]
    | r => c :: r

/-- Models `String.prototype.trim`. -/
def jsTrim (s : Str) : Str :=
  jsTrimEnd (s.dropWhile isJsWs)

/-- Worker for `jsCollapseWs`; `prev` records whether the previous input
character was whitespace (so a whitespace run yields one space). -/
def jsCollapseWsGo : Bool → Str → Str
  | _, [] => []
  | prev, c :: t =>
    if isJsWs c then
      if prev then jsCollapseWsGo true t else ' ' :: jsCollapseWsGo true t
    else c :: jsCollapseWsGo false t

/-- Models `s.replace(/\s+/g, " ")`: every maximal whitespace run becomes a
single space. -/
def jsCollapseWs (s : Str) : Str := jsCollapseWsGo false s

/-- Models `s.replace(/a/g, rep)` for a single-character pattern: global
left-to-right replacement (replacements are not rescanned). -/
def repl1 (a : Char) (rep : Str) : Str → Str
  | [] => []
  | c :: t => if c = a then rep ++ repl1 a rep t else c :: repl1 a rep t

/-- Models a global two-character regex replacement `a(b|b'|...) → rep`
(left-to-right, non-overlapping), e.g. `/\r\n/g`, `/\\n/g`, `/\\n/gi`. -/
def repl2 (a : Char) (bs : List Char) (rep : Str) : Str → Str
  | [] => []
  | [x] => [x]
  | x :: y :: t =>
    if x = a ∧ y ∈ bs then rep ++ repl2 a bs rep t
    else x :: repl2 a bs rep (y :: t)

/-- Models `String.prototype.split("\n")`. -/
def splitOnNl : Str → List Str
  | [] => [[]]
  | c :: t =>
    match splitOnNl t with
    | [] => [[c]]
    | p :: ps => if c = '\n' then [] :: p :: ps else (c :: p) :: ps

/-- Fueled worker for `splitOnList`; `acc` is the current piece, reversed.
Fuel `s.length` always suffices since each step consumes at least one
character of `s`. -/
def splitOnListGo (pat : Str) : Nat → Str → Str → List Str
  | 0, s, acc => [acc.reverse ++ s]
  | fuel + 1, s, acc =>
    if pat ≠ [] ∧ leadsWith pat s then
      acc.reverse :: splitOnListGo pat fuel (s.drop pat.length) []
    else
      match s with
      | [] => [acc.reverse]
      | c :: t => splitOnListGo pat fuel t (c :: acc)

/-- Models `String.prototype.split(pat)` for a non-empty literal separator
(also the behaviour of `split(new RegExp(escapeRegex(pat)))`). -/
def splitOnList (pat s : Str) : List Str :=
  splitOnListGo pat s.length s []

/-- Models `s.split(token).join(rep)` (equivalently `replaceAll` for a
non-empty literal token). -/
def jsSplitJoin (pat rep s : Str) : Str :=
  List.intercalate rep (splitOnList pat s)

/-- Fueled worker for `splitNlWs`.  A maximal whitespace run containing a
newline is one separator; that is the behaviour of splitting on the greedy
regex `/\s*\n\s*/`. -/
def splitNlWsGo : Nat → Str → Str → List Str
  | 0, s, acc => [acc.reverse ++ s]
  | _ + 1, [], acc => [acc.reverse]
  | fuel + 1, c :: t, acc =>
    if isJsWs c then
      let run := (c :: t).takeWhile isJsWs
      let rest := (c :: t).dropWhile isJsWs
      if '\n' ∈ run then acc.reverse :: splitNlWsGo fuel rest []
      else splitNlWsGo fuel rest (run.reverse ++ acc)
    else splitNlWsGo fuel t (c :: acc)

/-- Models `String.prototype.split(/\s*\n\s*/)`. -/
def splitNlWs (s : Str) : List Str :=
  splitNlWsGo s.length s []

/-- Stable insertion of `x` into a list sorted descending by `f`; `x`
precedes existing elements of equal measure because it comes earlier in
the original list (`insSortDesc` folds from the right). -/
def insDesc (f : α → Nat) (x : α) : List α → List α
  | [] => [x]
  | y :: t => if f y ≤ f x then x :: y :: t else y :: insDesc f x t

/-- Stable sort, descending by `f`: models
`Array.prototype.sort((a, b) => f(b) - f(a))` (stable per ES2019). -/
def insSortDesc (f : α → Nat) : List α → List α
  | [] => []
  | x :: t => insDesc f x (insSortDesc f t)

/-- Models assignment `m[k] = v` on a JS object / `Map.set`: an existing
key keeps its position and gets the new value, a new key is appended. -/
def recordSet [DecidableEq κ] (m : List (κ × ν)) (k : κ) (v : ν) : List (κ × ν) :=
  match m with
  | [] => [(k, v)]
  | (k', v') :: t => if k' = k then (k, v) :: t else (k', v') :: recordSet t k v

/-- Models JS object / `Map` lookup. -/
def recordGet [DecidableEq κ] (m : List (κ × ν)) (k : κ) : Option ν :=
  (m.find? (fun e => e.1 = k)).map (·.2)

/-- Models `Number(digits)` on a non-empty all-digit string. -/
def digitsToNat (s : Str) : Nat :=
  s.foldl (fun a c => a * 10 + (c.toNat - 48)) 0

/-- Models `String.prototype.toUpperCase` (ASCII fragment). -/
def jsToUpper (s : Str) : Str := s.map Char.toUpper

/-- Models `String.prototype.toLowerCase` (ASCII fragment). -/
def jsToLower (s : Str) : Str := s.map Char.toLower

/-! ## Task store: configuration and data model (src `Tasks`) -/

/-- One `freigegeben`/`gesperrt` pair of `statusSymbole`. -/
structure SymbolPaar where
  freigegeben : Str
  gesperrt : Str
deriving DecidableEq

/-- `TaskModifierConfig` (the `statusSymbole` nesting is flattened into the
two `SymbolPaar` fields). -/
structure TaskModifierConfig where
  descriptionTrennzeichen : Str
  hinweisTrennzeichen : Option Str
  nichtBegonnen : SymbolPaar
  erledigt : SymbolPaar
  summaryTrennzeichen : Str
  summaryInhalt : List Str
deriving DecidableEq

/-- The configuration produced by `readModifierConfig` when every field of
`Modifier.json` is absent: newline delimiter, `##` hint separator, symbols
`*`, `.*`, `✓`, `.✓`, summary delimiter `//`, no summary field names. -/
def defaultModifier : TaskModifierConfig where
  descriptionTrennzeichen := ['\n']
  hinweisTrennzeichen := some ['#', '#']
  nichtBegonnen := ⟨['*'], ['.', '*']⟩
  erledigt := ⟨['✓'], ['.', '✓']⟩
  summaryTrennzeichen := ['/', '/']
  summaryInhalt := []

/-- `ParsedUnteraufgabe`. -/
structure ParsedUnteraufgabe where
  symbol : Str
  status : Bool
  freigegeben : Bool
  titel : Str
  hinweis : Option Str
  raw : Str
deriving DecidableEq

/-- `ParsedSummary` (`felder` is the insertion-ordered record). -/
structure ParsedSummary where
  raw : Str
  teile : List Str
  felder : List (Str × Str)
deriving DecidableEq

/-- `ParsedTask`. -/
structure ParsedTask where
  sourceFile : Option Str
  uid : Option Str
  created : Option Str
  dtStamp : Option Str
  due : Option Str
  start : Option Str
  status : Option Str
  summary : ParsedSummary
  descriptionRaw : Str
  unteraufgaben : List ParsedUnteraufgabe
  properties : List (Str × Str)
deriving DecidableEq

/-- `UnteraufgabeUpdateInput` (`freigegeben` is optional in the source). -/
structure UnteraufgabeUpdateInput where
  titel : Str
  status : Bool
  freigegeben : Option Bool
  hinweis : Option Str
deriving DecidableEq

/-- The `patch` argument of `updateUnteraufgabeInFile`. -/
structure UnteraufgabePatch where
  status : Option Bool
  hinweis : Option Str
deriving DecidableEq

/-! ## Task store: functions -/

/-- `getHinweisSeparator`: the trimmed configured token wrapped in single
spaces, or `none` when unconfigured/empty. -/
def getHinweisSeparator (cfg : TaskModifierConfig) : Option Str :=
  match cfg.hinweisTrennzeichen with
  | none => none
  | some raw =>
    let r := jsTrim raw
    if r = [] then none else some (' ' :: (r ++ [' ']))

/-- `getSteuerzeichenTokens`: the four status symbols, the trimmed hint
separator and the description delimiter, dropping absent/empty entries,
stably sorted by length descending. -/
def getSteuerzeichenTokens (cfg : TaskModifierConfig) : List Str :=
  insSortDesc List.length
    (([some cfg.nichtBegonnen.freigegeben, some cfg.nichtBegonnen.gesperrt,
       some cfg.erledigt.freigegeben, some cfg.erledigt.gesperrt,
       cfg.hinweisTrennzeichen.map jsTrim,
       some cfg.descriptionTrennzeichen].filterMap id).filter (· ≠ []))

/-- `normalizeHinweis`: NFKC (abstract `nfkc`), control characters to
space, remove every control token, collapse whitespace, trim, hard
truncation to 20 characters with a trailing trim. -/
def normalizeHinweis (nfkc : Str → Str) (cfg : TaskModifierConfig) (hinweis : Str) : Str :=
  let n0 := (nfkc hinweis).map (fun c => if isJsControl c then ' ' else c)
  let n1 := (getSteuerzeichenTokens cfg).foldl (fun acc token => jsSplitJoin token [' '] acc) n0
  let n2 := jsTrim (jsCollapseWs n1)
  if 20 < n2.length then jsTrimEnd (n2.take 20) else n2

/-- `toSymbol`: the four-way `(status, freigegeben)` to symbol mapping. -/
def toSymbol (cfg : TaskModifierConfig) (status freigegeben : Bool) : Str :=
  match status, freigegeben with
  | false, false => cfg.nichtBegonnen.gesperrt
  | true, false => cfg.erledigt.gesperrt
  | false, true => cfg.nichtBegonnen.freigegeben
  | true, true => cfg.erledigt.freigegeben

/-- `buildUnteraufgabeText`: trimmed title, plus separator and trimmed hint
when both are non-empty. -/
def buildUnteraufgabeText (cfg : TaskModifierConfig) (item : UnteraufgabeUpdateInput) : Str :=
  let titel := jsTrim item.titel
  let hinweis := jsTrim (item.hinweis.getD [])
  match getHinweisSeparator cfg with
  | none => titel
  | some separator => if hinweis = [] then titel else titel ++ separator ++ hinweis

/-- `buildDescriptionValue`: `symbol + " " + text` per subtask (trimmed),
joined with the description delimiter. -/
def buildDescriptionValue (cfg : TaskModifierConfig)
    (unteraufgaben : List UnteraufgabeUpdateInput) : Str :=
  List.intercalate cfg.descriptionTrennzeichen
    (unteraufgaben.map (fun item =>
      jsTrim (toSymbol cfg item.status (item.freigegeben.getD true)
        ++ ' ' :: buildUnteraufgabeText cfg item)))

/-- One candidate of the status-symbol dispatch. -/
structure StatusKandidat where
  symbol : Str
  status : Bool
  freigegeben : Bool
deriving DecidableEq

/-- The candidate array of `parseStatusPrefix`, stably sorted by symbol
length descending. -/
def statusKandidaten (cfg : TaskModifierConfig) : List StatusKandidat :=
  insSortDesc (fun k => k.symbol.length)
    [⟨cfg.nichtBegonnen.gesperrt, false, false⟩,
     ⟨cfg.erledigt.gesperrt, true, false⟩,
     ⟨cfg.nichtBegonnen.freigegeben, false, true⟩,
     ⟨cfg.erledigt.freigegeben, true, true⟩]

/-- Result of the status-symbol dispatch. -/
structure StatusTeil where
  symbol : Str
  status : Bool
  freigegeben : Bool
  inhalt : Str
deriving DecidableEq

/-- `parseStatusPrefix`: first candidate whose symbol is a literal leading
substring wins; otherwise not-done/unlocked with empty symbol. -/
def parseStatusPrefix (cfg : TaskModifierConfig) (rawPart : Str) : StatusTeil :=
  match (statusKandidaten cfg).find? (fun k => leadsWith k.symbol rawPart) with
  | some k => ⟨k.symbol, k.status, k.freigegeben, jsTrim (rawPart.drop k.symbol.length)⟩
  | none => ⟨[], false, true, jsTrim rawPart⟩

/-- Result of `splitTitelUndHinweis`. -/
structure TitelHinweis where
  titel : Str
  hinweis : Option Str
deriving DecidableEq

/-- `splitTitelUndHinweis`: split the content at the first occurrence of
the space-wrapped hint separator; the right part is normalized, an empty
normalized hint is absent. -/
def splitTitelUndHinweis (nfkc : Str → Str) (cfg : TaskModifierConfig)
    (text : Str) : TitelHinweis :=
  match getHinweisSeparator cfg with
  | none => ⟨jsTrim text, none⟩
  | some separator =>
    match subIdx separator text with
    | none => ⟨jsTrim text, none⟩
    | some separatorIndex =>
      let titel := jsTrim (text.take separatorIndex)
      let hinweis := normalizeHinweis nfkc cfg (text.drop (separatorIndex + separator.length))
      ⟨titel, if hinweis = [] then none else some hinweis⟩

/-- `parseUnteraufgaben`: normalize escaped newlines and CRLF, trim, split
(on whitespace-padded newlines when the delimiter contains a newline, else
on the literal delimiter), trim and drop empty parts, dispatch the status
symbol and split title from hint. -/
def parseUnteraufgaben (nfkc : Str → Str) (cfg : TaskModifierConfig)
    (descriptionRaw : Str) : List ParsedUnteraufgabe :=
  let text := jsTrim (repl2 '\r' ['\n'] ['\n'] (repl2 '\\' ['n'] ['\n'] descriptionRaw))
  if text = [] then []
  else
    let parts := if cfg.descriptionTrennzeichen.contains '\n'
      then splitNlWs text
      else splitOnList cfg.descriptionTrennzeichen text
    ((parts.map jsTrim).filter (· ≠ [])).map (fun rawPart =>
      let st := parseStatusPrefix cfg rawPart
      let tz := splitTitelUndHinweis nfkc cfg st.inhalt
      ⟨st.symbol, st.status, st.freigegeben, tz.titel, tz.hinweis, rawPart⟩)

/-- `parseSummary`: split on the summary delimiter, trim, drop empties, map
the configured field names positionally. -/
def parseSummary (cfg : TaskModifierConfig) (summaryRaw : Str) : ParsedSummary :=
  let teile := ((splitOnList cfg.summaryTrennzeichen summaryRaw).map jsTrim).filter (· ≠ [])
  let felder := (cfg.summaryInhalt.enum).foldl
    (fun acc ik => recordSet acc ik.2 (teile.getD ik.1 [])) []
  ⟨summaryRaw, teile, felder⟩

/-- `unescapeIcsText`: `\n`/`\N` (case-insensitive) to newline, then
`\,`, `\;`, `\\`. -/
def unescapeIcsText (value : Str) : Str :=
  repl2 '\\' ['\\'] ['\\']
    (repl2 '\\' [';'] [';']
      (repl2 '\\' [','] [',']
        (repl2 '\\' ['n', 'N'] ['\n'] value)))

/-- `escapeIcsText`: backslash, newline, comma, semicolon — in that
order. -/
def escapeIcsText (value : Str) : Str :=
  repl1 ';' ['\\', ';']
    (repl1 ',' ['\\', ',']
      (repl1 '\n' ['\\', 'n']
        (repl1 '\\' ['\\', '\\'] value)))

/-- Whether a physical line is a folding continuation
(`line.startsWith(" ") || line.startsWith("\t")`). -/
def startsWsOrTab (line : Str) : Bool :=
  leadsWith [' '] line || leadsWith ['\t'] line

/-- The loop body of `unfoldIcsLines`: a continuation line (when an
unfolded line already exists) is appended, minus its first character, to
the last unfolded line; otherwise the line starts a new logical line. -/
def unfoldStep (unfolded : List Str) (line : Str) : List Str :=
  if startsWsOrTab line ∧ unfolded ≠ [] then
    unfolded.dropLast ++ [unfolded.getLastD [] ++ line.drop 1]
  else unfolded ++ [line]

/-- `unfoldIcsLines`: normalize CRLF, split on newline, then append each
continuation line (minus its first character) to the preceding unfolded
line. -/
def unfoldIcsLines (content : Str) : List Str :=
  (splitOnNl (repl2 '\r' ['\n'] ['\n'] content)).foldl unfoldStep []

def beginVtodo : Str := "BEGIN:VTODO".data

def endVtodo : Str := "END:VTODO".data

/-- The line-collection loop of `parseIcsProperties`: a `BEGIN:VTODO` line
switches collection on (and is itself skipped), the first `END:VTODO` line
stops the whole loop, other lines are kept while collection is on. -/
def collectVtodoLines : List Str → Bool → List Str
  | [], _ => []
  | line :: rest, insideVtodo =>
    if line = beginVtodo then collectVtodoLines rest true
    else if line = endVtodo then []
    else if insideVtodo then line :: collectVtodoLines rest insideVtodo
    else collectVtodoLines rest insideVtodo

/-- One property line: split on the first colon (which must exist at a
positive index), the key is the upper-cased part before any semicolon, the
value is unescaped. -/
def parsePropLine (line : Str) : Option (Str × Str) :=
  match subIdx [':'] line with
  | none => none
  | some separatorIndex =>
    if separatorIndex = 0 then none
    else some (jsToUpper ((line.take separatorIndex).takeWhile (· ≠ ';')),
      unescapeIcsText (line.drop (separatorIndex + 1)))

/-- The property fold of `parseIcsProperties`: each kept line with a colon
at a positive index contributes its key/value, later occurrences of a key
overwrite earlier ones. -/
def propsOfLines (lines : List Str) : List (Str × Str) :=
  lines.foldl
    (fun props line =>
      match parsePropLine line with
      | none => props
      | some kv => recordSet props kv.1 kv.2) []

/-- `parseIcsProperties`: collect the VTODO lines and fold them into a
last-wins property record. -/
def parseIcsProperties (content : Str) : List (Str × Str) :=
  propsOfLines (collectVtodoLines (unfoldIcsLines content) false)

/-- `getVtodoBounds`: index of the first `BEGIN:VTODO` line and of the
first `END:VTODO` line after it. -/
def getVtodoBounds (lines : List Str) : Option (Nat × Nat) :=
  match lines.findIdx? (· = beginVtodo) with
  | none => none
  | some b =>
    match (lines.drop (b + 1)).findIdx? (· = endVtodo) with
    | none => none
    | some k => some (b, b + 1 + k)

/-- The key-matching test of `upsertProperty`: the line has a colon at a
positive index and the upper-cased part before any semicolon equals the
upper-cased key. -/
def lineKeyMatches (keyUpper : Str) (line : Str) : Bool :=
  match subIdx [':'] line with
  | none => false
  | some separatorIndex =>
    if separatorIndex = 0 then false
    else jsToUpper ((line.take separatorIndex).takeWhile (· ≠ ';')) = keyUpper

/-- Models `Array.prototype.findIndex`. -/
def findMatchIdx (p : Str → Bool) : List Str → Option Nat
  | [] => none
  | line :: rest => if p line then some 0 else (findMatchIdx p rest).map (· + 1)

/-- `upsertProperty`: replace the first matching line with `KEY:value`, or
append it. -/
def upsertProperty (lines : List Str) (key value : Str) : List Str :=
  let keyUpper := jsToUpper key
  let newLine := keyUpper ++ ':' :: value
  match findMatchIdx (lineKeyMatches keyUpper) lines with
  | some index => lines.set index newLine
  | none => lines ++ [newLine]

def uidKey : Str := "UID".data

def createdKey : Str := "CREATED".data

def dtStampKey : Str := "DTSTAMP".data

def dueKey : Str := "DUE".data

def dtStartKey : Str := "DTSTART".data

def statusKey : Str := "STATUS".data

def summaryKey : Str := "SUMMARY".data

def descriptionKey : Str := "DESCRIPTION".data

def lastModifiedKey : Str := "LAST-MODIFIED".data

/-- `parseTaskFromIcsContent`. -/
def parseTaskFromIcsContent (nfkc : Str → Str) (cfg : TaskModifierConfig)
    (content : Str) (sourceFile : Option Str) : ParsedTask :=
  let props := parseIcsProperties content
  let summaryRaw := (recordGet props summaryKey).getD []
  let descriptionRaw := (recordGet props descriptionKey).getD []
  { sourceFile := sourceFile
    uid := recordGet props uidKey
    created := recordGet props createdKey
    dtStamp := recordGet props dtStampKey
    due := recordGet props dueKey
    start := recordGet props dtStartKey
    status := recordGet props statusKey
    summary := parseSummary cfg summaryRaw
    descriptionRaw := descriptionRaw
    unteraufgaben := parseUnteraufgaben nfkc cfg descriptionRaw
    properties := props }

/-- `content.includes("\r\n") ? "\r\n" : "\n"`. -/
def detectNewline (content : Str) : Str :=
  if hasSub ['\r', '\n'] content then ['\r', '\n'] else ['\n']

/-- `writeUnteraufgabenToFile`, modelled over file content: the returned
pair is (content written back to the file, the re-parsed task).  `nowUtc`
stands for `toUtcTimestamp(new Date())`. -/
def writeUnteraufgabenToFile (nfkc : Str → Str) (cfg : TaskModifierConfig)
    (nowUtc : Str) (content : Str)
    (unteraufgaben : List UnteraufgabeUpdateInput) : Except Str (Str × ParsedTask) :=
  let newline := detectNewline content
  let unfoldedLines := unfoldIcsLines content
  match getVtodoBounds unfoldedLines with
  | none => .error "Keine VTODO-Komponente in der ICS-Datei gefunden.".data
  | some bounds =>
    let vtodoLines := (unfoldedLines.drop (bounds.1 + 1)).take (bounds.2 - (bounds.1 + 1))
    let descriptionValue := buildDescriptionValue cfg unteraufgaben
    let vtodoLines1 := upsertProperty vtodoLines descriptionKey (escapeIcsText descriptionValue)
    let vtodoLines2 := upsertProperty vtodoLines1 dtStampKey nowUtc
    let vtodoLines3 := upsertProperty vtodoLines2 lastModifiedKey nowUtc
    let updatedLines := (unfoldedLines.take (bounds.1 + 1)) ++ vtodoLines3
      ++ (unfoldedLines.drop bounds.2)
    let updatedContent := List.intercalate newline updatedLines ++ newline
    .ok (updatedContent, parseTaskFromIcsContent nfkc cfg updatedContent none)

/-- The out-of-range error message of `updateUnteraufgabeInFile`. -/
def errOutOfRange (unteraufgabeIndex : Int) : Str :=
  "Unteraufgabe Index ".data ++ (toString unteraufgabeIndex).data
    ++ " ist außerhalb des gültigen Bereichs.".data

/-- `updateUnteraufgabeInFile`, modelled over file content: re-parse,
validate the index, apply the patch (hint normalized, empty normalized
hint stored as absent) and delegate to `writeUnteraufgabenToFile`. -/
def updateUnteraufgabeInFile (nfkc : Str → Str) (cfg : TaskModifierConfig)
    (nowUtc : Str) (content : Str) (unteraufgabeIndex : Int)
    (patch : UnteraufgabePatch) : Except Str (Str × ParsedTask) :=
  let parsed := parseTaskFromIcsContent nfkc cfg content none
  let unteraufgaben : List UnteraufgabeUpdateInput := parsed.unteraufgaben.map
    (fun item => ⟨item.titel, item.status, some item.freigegeben, item.hinweis⟩)
  if unteraufgabeIndex < 0 ∨ (unteraufgaben.length : Int) ≤ unteraufgabeIndex then
    .error (errOutOfRange unteraufgabeIndex)
  else
    let i := unteraufgabeIndex.toNat
    let current := unteraufgaben.getD i ⟨[], false, none, none⟩
    let nextHinweis := match patch.hinweis with
      | none => current.hinweis
      | some h => some (normalizeHinweis nfkc cfg h)
    let updated : UnteraufgabeUpdateInput :=
      { current with
        status := patch.status.getD current.status
        hinweis := match nextHinweis with
          | none => none
          | some h => if h = [] then none else some h }
    writeUnteraufgabenToFile nfkc cfg nowUtc content (unteraufgaben.set i updated)

/-! ## Reference data resolver (src `StammDaten.ts`) -/

/-- `AdresseDatensatz`. -/
structure AdresseDatensatz where
  ID : Int
  strasse : Str
  hausnummer : Str
  plz : Str
  ort : Str
deriving DecidableEq

/-- `PersonDatensatz`. -/
structure PersonDatensatz where
  ID : Int
  name : Str
  telefon : Str
deriving DecidableEq

/-- `TypDatensatz`. -/
structure TypDatensatz where
  ID : Int
  name : Str
deriving DecidableEq

/-- `HausDatensatz` (`Typ.ID`, `ID`, `Adresse.ID`). -/
structure HausDatensatz where
  typId : Int
  ID : Int
  adresseId : Int
deriving DecidableEq

/-- `BereichDatensatz` (`Typ.ID`, `ID`, `Haus.ID`, `Eingang`, `Lage`,
`Person.ID`). -/
structure BereichDatensatz where
  typId : Int
  ID : Int
  hausId : Int
  eingang : Str
  lage : Str
  personIds : List Int
deriving DecidableEq

/-- `StammdatenBereich`: the five collections. -/
structure StammdatenBereich where
  adresse : List AdresseDatensatz
  person : List PersonDatensatz
  typ : List TypDatensatz
  haus : List HausDatensatz
  bereich : List BereichDatensatz
deriving DecidableEq

/-- `normalizeTypName`: trim then lowercase. -/
def normalizeTypName (typName : Str) : Str := jsToLower (jsTrim typName)

/-- The `typByName` index (`Map.set` per `Typ` entry, last wins). -/
def typByName (d : StammdatenBereich) : List (Str × TypDatensatz) :=
  d.typ.foldl (fun m typ => recordSet m (normalizeTypName typ.name) typ) []

/-- The `bereichByKey` index; the source string key `typId:bereichId` is
modelled as the pair (the string form is injective on number pairs). -/
def bereichByKey (d : StammdatenBereich) : List ((Int × Int) × BereichDatensatz) :=
  d.bereich.foldl (fun m b => recordSet m (b.typId, b.ID) b) []

/-- `getBereichByKey`. -/
def getBereichByKey (d : StammdatenBereich) (typId bereichId : Int) :
    Option BereichDatensatz :=
  recordGet (bereichByKey d) (typId, bereichId)

/-- `getBereichByTypNameUndId`: resolve the category by normalized name,
then by composite key. -/
def getBereichByTypNameUndId (d : StammdatenBereich) (typName : Str)
    (bereichId : Int) : Option BereichDatensatz :=
  match recordGet (typByName d) (normalizeTypName typName) with
  | none => none
  | some typ => getBereichByKey d typ.ID bereichId

def isAsciiDigit (c : Char) : Bool := '0' ≤ c && c ≤ '9'

/-- Models the match of `/^(.*)\s+(\d+)$/` with greedy semantics: the
digit group is the maximal trailing digit run, exactly one preceding
whitespace character is consumed by `\s+`, the rest is group 1. -/
def matchTypBereich (segment : Str) : Option (Str × Nat) :=
  let digits := (segment.reverse.takeWhile isAsciiDigit).reverse
  if digits = [] then none
  else
    let rest := segment.take (segment.length - digits.length)
    if rest.reverse.takeWhile isJsWs = [] then none
    else some (rest.take (rest.length - 1), digitsToNat digits)

/-- Models `s.replace(/[)"']+$/g, "")`. -/
def stripSchliessend (s : Str) : Str :=
  (s.reverse.dropWhile (fun c => c = ')' || c = '"' || c = '\'')).reverse

/-- `getBereichByBezeichnung`: trim, collapse whitespace, strip trailing
closing punctuation, keep only the trimmed segment after the last hyphen,
match trailing `name digits`, delegate. -/
def getBereichByBezeichnung (d : StammdatenBereich) (bezeichnung : Str) :
    Option BereichDatensatz :=
  let normalized := stripSchliessend (jsCollapseWs (jsTrim bezeichnung))
  let segment := if normalized.contains '-'
    then jsTrim ((splitOnList ['-'] normalized).getLastD normalized)
    else normalized
  match matchTypBereich segment with
  | none => none
  | some tn => getBereichByTypNameUndId d tn.1 (tn.2 : Int)

/-! ## Specification-side characterizations and concrete inputs -/

/-- Claim-side characterization of the collected VTODO region: the
unfolded lines strictly after the first `BEGIN:VTODO`, truncated at the
first `END:VTODO` of the whole content, further `BEGIN:VTODO` lines
skipped; empty when the first `END:VTODO` precedes the first
`BEGIN:VTODO` or no `BEGIN:VTODO` exists. -/
def vtodoRegionLines (lines : List Str) : List Str :=
  (((lines.takeWhile (· ≠ endVtodo)).dropWhile (· ≠ beginVtodo)).drop 1).filter
    (· ≠ beginVtodo)

def nowStamp : Str := "20250101T000000Z".data

def c2Content : Str := "BEGIN:VTODO\nDESCRIPTION:* a\nEND:VTODO\n".data

def c3Content : Str := "BEGIN:VTODO\nA:1".data

def c4Content : Str := "BEGIN:VTODO\nEND:VTODO\n".data

def c4Expected : Str :=
  "BEGIN:VTODO\nDESCRIPTION:\nDTSTAMP:20250101T000000Z\nLAST-MODIFIED:20250101T000000Z\nEND:VTODO\n\n".data

def kellerThreeLabel : Str := "Keller 3".data

def gebaeudeKellerLabel : Str := "Gebäude A - Keller 3".data

def kellerName : Str := "Keller".data

def kellerKey : Str := "keller".data

/-- A concrete dataset with a category named "Keller" and one area
(Keller, 3). -/
def c6Daten : StammdatenBereich :=
  ⟨[], [], [⟨7, kellerName⟩], [], [⟨7, 3, 1, [], [], []⟩]⟩

def c10Sample : Str := " ein ## Hinweis mit *Symbolen* ".data

def c8First : Str := "DESCRIPTION:eine lange Beschreib".data

def c8Cont : Str := "ung der Aufgabe".data

/-- The per-subtask encoded segment of `buildDescriptionValue` (the body of
its `map`): status symbol, a space, the built subtask text, trimmed. -/
def segmentOf (cfg : TaskModifierConfig) (item : UnteraufgabeUpdateInput) : Str :=
  jsTrim (toSymbol cfg item.status (item.freigegeben.getD true)
    ++ ' ' :: buildUnteraufgabeText cfg item)

/-- The `(done, unlocked, title, hint)` tuple of a parsed subtask. -/
def parsedTuple (u : ParsedUnteraufgabe) : Bool × Bool × Str × Option Str :=
  (u.status, u.freigegeben, u.titel, u.hinweis)

/-- The `(done, unlocked, title, hint)` tuple of an encode input
(`freigegeben` defaults to `true`, as in `buildDescriptionValue`). -/
def inputTuple (i : UnteraufgabeUpdateInput) : Bool × Bool × Str × Option Str :=
  (i.status, i.freigegeben.getD true, i.titel, i.hinweis)

/-- Precondition making the encode/decode round trip exact under the
default configuration: the title is already trimmed and free of `##`, of
newlines, and of the literal two-character sequence backslash-`n`; a
present hint is already normalized, non-empty and free of backslash-`n`,
and then the title is non-empty (after an empty title the separator and
hint would be re-parsed as the title).  The counterexample `c1Bad` shows
the title-side conditions are not optional. -/
def RundreiseTauglich (nfkc : Str → Str) (i : UnteraufgabeUpdateInput) : Prop :=
  jsTrim i.titel = i.titel ∧
  hasSub ['#', '#'] i.titel = false ∧
  '\n' ∉ i.titel ∧
  hasSub ['\\', 'n'] i.titel = false ∧
  match i.hinweis with
  | none => True
  | some h => normalizeHinweis nfkc defaultModifier h = h ∧ h ≠ [] ∧
      hasSub ['\\', 'n'] h = false ∧ i.titel ≠ []

/-- A subtask list with normalized hints (there are none) whose title
contains a newline; encoding and decoding it yields two subtasks. -/
def c1Bad : List UnteraufgabeUpdateInput :=
  [⟨['a', '\n', 'b'], false, some true, none⟩]

/-- A concrete round-trip-suitable subtask list. -/
def c1Good : List UnteraufgabeUpdateInput :=
  [⟨"Aufgabe eins".data, false, some true, none⟩,
   ⟨"Zwei".data, true, none, some "hint".data⟩]

end HausAufgaben

namespace HausAufgaben

/-! ## Helper lemmas -/

/-- `findMatchIdx` returns the first index satisfying `p`, or `none` when
no line does. -/
theorem findMatchIdx_spec (p : Str → Bool) : ∀ lines : List Str,
    (∃ i, findMatchIdx p lines = some i ∧ i < lines.length ∧
      p (lines.getD i []) = true ∧ ∀ j, j < i → p (lines.getD j []) = false) ∨
    (findMatchIdx p lines = none ∧ ∀ l ∈ lines, p l = false) := by
  intro lines
  induction lines with
  | nil => exact Or.inr ⟨rfl, by simp⟩
  | cons line rest ih =>
    by_cases h : p line
    · refine Or.inl ⟨0, ?_, Nat.succ_pos _, by simpa using h, fun j hj => absurd hj (Nat.not_lt_zero j)⟩
      simp [findMatchIdx, h]
    · rcases ih with ⟨i, hfi, hlen, hpi, hprev⟩ | ⟨hfi, hall⟩
      · refine Or.inl ⟨i + 1, ?_, by simpa using hlen, by simpa using hpi, ?_⟩
        · simp [findMatchIdx, h, hfi]
        · intro j hj
          cases j with
          | zero => simpa using h
          | succ j' => simpa using hprev j' (by omega)
      · refine Or.inr ⟨by simp [findMatchIdx, h, hfi], ?_⟩
        intro l hl
        rcases List.mem_cons.mp hl with rfl | hl
        · simpa using h
        · exact hall l hl

theorem interc_nil (sep : Str) : List.intercalate sep ([] : List Str) = [] := by
  simp [List.intercalate]

theorem interc_single (sep p : Str) : List.intercalate sep [p] = p := by
  simp [List.intercalate]

theorem interc_cons2 (sep p q : Str) (l : List Str) :
    List.intercalate sep (p :: q :: l) = p ++ sep ++ List.intercalate sep (q :: l) := by
  simp [List.intercalate]

theorem leadsWith_length : ∀ {pat s : Str}, leadsWith pat s = true → pat.length ≤ s.length
  | [], _, _ => Nat.zero_le _
  | _ :: _, [], h => by simp [leadsWith] at h
  | a :: as, b :: bs, h => by
    simp only [leadsWith, Bool.and_eq_true, decide_eq_true_eq] at h
    simpa using leadsWith_length h.2

theorem leadsWith_ne_nil {pat s : Str} (hp : pat ≠ []) (h : leadsWith pat s = true) :
    s ≠ [] := by
  cases s with
  | nil =>
    cases pat with
    | nil => exact absurd rfl hp
    | cons a as => simp [leadsWith] at h
  | cons c t => simp

/-- Fuel insensitivity: any two sufficient fuels agree. -/
theorem splitOnListGo_fuel (pat : Str) : ∀ (f g : Nat) (s acc : Str),
    s.length ≤ f → s.length ≤ g →
    splitOnListGo pat f s acc = splitOnListGo pat g s acc := by
  intro f
  induction f with
  | zero =>
    intro g s acc hf _
    have hs : s = [] := List.eq_nil_of_length_eq_zero (Nat.le_zero.mp hf)
    subst hs
    cases g with
    | zero => rfl
    | succ g =>
      have hc : ¬(pat ≠ [] ∧ leadsWith pat ([] : Str) = true) := by
        rintro ⟨hp, hl⟩
        exact absurd rfl (leadsWith_ne_nil hp hl)
      simp [splitOnListGo, hc]
  | succ f ih =>
    intro g s acc hf hg
    cases g with
    | zero =>
      have hs : s = [] := List.eq_nil_of_length_eq_zero (Nat.le_zero.mp hg)
      subst hs
      have hc : ¬(pat ≠ [] ∧ leadsWith pat ([] : Str) = true) := by
        rintro ⟨hp, hl⟩
        exact absurd rfl (leadsWith_ne_nil hp hl)
      simp [splitOnListGo, hc]
    | succ g =>
      by_cases hc : pat ≠ [] ∧ leadsWith pat s = true
      · have hs : s ≠ [] := leadsWith_ne_nil hc.1 hc.2
        have hplen : 1 ≤ pat.length := by
          cases pat with
          | nil => exact absurd rfl hc.1
          | cons a as => simp
        have hslen : 1 ≤ s.length := by
          cases s with
          | nil => exact absurd rfl hs
          | cons c t => simp
        have hd : (s.drop pat.length).length ≤ f := by
          rw [List.length_drop]; omega
        have hd' : (s.drop pat.length).length ≤ g := by
          rw [List.length_drop]; omega
        simp only [splitOnListGo, if_pos hc]
        rw [ih g (s.drop pat.length) [] hd hd']
      · cases s with
        | nil => simp [splitOnListGo, hc]
        | cons c t =>
          simp only [splitOnListGo, if_neg hc]
          exact ih g t (c :: acc) (by simpa using hf) (by simpa using hg)

/-- Accumulator normalization for the fueled splitter. -/
theorem splitOnListGo_acc (pat : Str) : ∀ (f : Nat) (s acc : Str),
    splitOnListGo pat f s acc
      = match splitOnListGo pat f s [] with
        | [] => [acc.reverse]
        | p :: ps => (acc.reverse ++ p) :: ps := by
  intro f
  induction f with
  | zero => intro s acc; simp [splitOnListGo]
  | succ f ih =>
    intro s acc
    by_cases hc : pat ≠ [] ∧ leadsWith pat s = true
    · simp [splitOnListGo, hc]
    · cases s with
      | nil => simp [splitOnListGo, hc]
      | cons c t =>
        simp only [splitOnListGo, if_neg hc]
        rw [ih t (c :: acc), ih t [c]]
        cases splitOnListGo pat f t [] with
        | nil => simp
        | cons p ps => simp

theorem splitOnListGo_ne_nil (pat : Str) : ∀ (f : Nat) (s acc : Str),
    splitOnListGo pat f s acc ≠ [] := by
  intro f
  induction f with
  | zero => intro s acc; simp [splitOnListGo]
  | succ f ih =>
    intro s acc
    by_cases hc : pat ≠ [] ∧ leadsWith pat s = true
    · simp [splitOnListGo, hc]
    · cases s with
      | nil => simp [splitOnListGo, hc]
      | cons c t => simpa [splitOnListGo, hc] using ih t (c :: acc)

theorem splitOnList_ne_nil (pat s : Str) : splitOnList pat s ≠ [] :=
  splitOnListGo_ne_nil pat s.length s []

theorem splitOnList_nil (pat : Str) : splitOnList pat [] = [[]] := by
  simp [splitOnList, splitOnListGo]

/-- Unfolding equation of `splitOnList` at a match. -/
theorem splitOnList_match {pat s : Str} (hp : pat ≠ []) (h : leadsWith pat s = true) :
    splitOnList pat s = [] :: splitOnList pat (s.drop pat.length) := by
  have hs : s ≠ [] := leadsWith_ne_nil hp h
  obtain ⟨c, t, rfl⟩ := List.exists_cons_of_ne_nil hs
  have hplen : 1 ≤ pat.length := by
    cases pat with
    | nil => exact absurd rfl hp
    | cons a as => simp
  unfold splitOnList
  have h1 : ((c :: t) : Str).length = t.length + 1 := by simp
  rw [h1]
  simp only [splitOnListGo, if_pos (And.intro hp h), List.reverse_nil]
  have hd : (List.drop pat.length (c :: t)).length ≤ t.length := by
    rw [List.length_drop]; simp; omega
  rw [splitOnListGo_fuel pat t.length (List.drop pat.length (c :: t)).length
    (List.drop pat.length (c :: t)) [] hd le_rfl]

/-- Unfolding equation of `splitOnList` at a non-match. -/
theorem splitOnList_cons {pat : Str} (c : Char) (t : Str)
    (h : ¬(pat ≠ [] ∧ leadsWith pat (c :: t) = true)) :
    splitOnList pat (c :: t)
      = match splitOnList pat t with
        | [] => [[c]]
        | p :: ps => (c :: p) :: ps := by
  unfold splitOnList
  have h1 : ((c :: t) : Str).length = t.length + 1 := by simp
  rw [h1]
  simp only [splitOnListGo, if_neg h]
  rw [splitOnListGo_acc pat t.length t [c]]
  cases splitOnListGo pat t.length t [] with
  | nil => simp
  | cons p ps => simp

theorem jsSplitJoin_nil (pat rep : Str) : jsSplitJoin pat rep [] = [] := by
  simp [jsSplitJoin, splitOnList_nil, interc_single]

/-- Unfolding equation of `jsSplitJoin` at a match. -/
theorem jsSplitJoin_match {pat : Str} (rep : Str) {s : Str} (hp : pat ≠ [])
    (h : leadsWith pat s = true) :
    jsSplitJoin pat rep s = rep ++ jsSplitJoin pat rep (s.drop pat.length) := by
  unfold jsSplitJoin
  rw [splitOnList_match hp h]
  obtain ⟨p, ps, he⟩ :=
    List.exists_cons_of_ne_nil (splitOnList_ne_nil pat (s.drop pat.length))
  rw [he, interc_cons2]
  simp

/-- Unfolding equation of `jsSplitJoin` at a non-match. -/
theorem jsSplitJoin_cons {pat : Str} (rep : Str) (c : Char) (t : Str)
    (h : ¬(pat ≠ [] ∧ leadsWith pat (c :: t) = true)) :
    jsSplitJoin pat rep (c :: t) = c :: jsSplitJoin pat rep t := by
  unfold jsSplitJoin
  rw [splitOnList_cons c t h]
  obtain ⟨p, ps, he⟩ := List.exists_cons_of_ne_nil (splitOnList_ne_nil pat t)
  rw [he]
  cases ps with
  | nil => simp [interc_single]
  | cons q qs => rw [interc_cons2, interc_cons2]; simp

theorem leadsWith_mem : ∀ {pat s : Str} {a : Char},
    leadsWith pat s = true → a ∈ pat → a ∈ s
  | [], _, a, _, ha => absurd ha (List.not_mem_nil a)
  | p :: ps, [], a, h, _ => by simp [leadsWith] at h
  | p :: ps, b :: bs, a, h, ha => by
    simp only [leadsWith, Bool.and_eq_true, decide_eq_true_eq] at h
    rcases List.mem_cons.mp ha with rfl | ha'
    · rw [h.1]; exact List.mem_cons_self _ _
    · exact List.mem_cons_of_mem _ (leadsWith_mem h.2 ha')

theorem mem_of_hasSub : ∀ {s pat : Str} {a : Char},
    hasSub pat s = true → a ∈ pat → a ∈ s
  | [], pat, a, h, ha => leadsWith_mem (by simpa [hasSub] using h) ha
  | c :: t, pat, a, h, ha => by
    simp only [hasSub, Bool.or_eq_true] at h
    rcases h with h | h
    · exact leadsWith_mem h ha
    · exact List.mem_cons_of_mem _ (mem_of_hasSub h ha)

theorem not_hasSub_of_not_mem {pat s : Str} {a : Char} (ha : a ∈ pat) (hs : a ∉ s) :
    hasSub pat s = false := by
  cases h : hasSub pat s with
  | false => rfl
  | true => exact absurd (mem_of_hasSub h ha) hs

theorem hasSub_tail {pat : Str} {c : Char} {t : Str} (h : hasSub pat t = true) :
    hasSub pat (c :: t) = true := by
  simp [hasSub, h]

theorem hasSub_append_right {pat b : Str} : ∀ (a : Str),
    hasSub pat b = true → hasSub pat (a ++ b) = true
  | [], h => h
  | c :: t, h => by simpa using hasSub_tail (hasSub_append_right t h)

theorem leadsWith_of_take : ∀ {p : Str} {n : Nat} {s : Str},
    leadsWith p (s.take n) = true → leadsWith p s = true
  | [], _, _, _ => rfl
  | d :: ds, n, [], h => by rw [List.take_nil] at h; exact h
  | d :: ds, 0, c :: t, h => by simp [leadsWith] at h
  | d :: ds, n + 1, c :: t, h => by
    rw [List.take_succ_cons] at h
    simp only [leadsWith, Bool.and_eq_true, decide_eq_true_eq] at h ⊢
    exact ⟨h.1, leadsWith_of_take h.2⟩

theorem hasSub_of_take {pat : Str} : ∀ {s : Str} {n : Nat},
    hasSub pat (s.take n) = true → hasSub pat s = true
  | [], n, h => by simpa using h
  | c :: t, 0, h => by
    simp only [List.take_zero] at h
    cases pat with
    | nil => simp [hasSub, leadsWith]
    | cons p ps => simp [hasSub, leadsWith] at h
  | c :: t, n + 1, h => by
    rw [List.take_succ_cons] at h
    simp only [hasSub, Bool.or_eq_true] at h ⊢
    rcases h with h | h
    · have h' : leadsWith pat ((c :: t).take (n + 1)) = true := by
        simpa [List.take_succ_cons] using h
      exact Or.inl (leadsWith_of_take h')
    · exact Or.inr (hasSub_of_take h)

theorem jsTrimEnd_is_take : ∀ s : Str, ∃ n, jsTrimEnd s = s.take n
  | [] => ⟨0, rfl⟩
  | c :: t => by
    obtain ⟨m, hm⟩ := jsTrimEnd_is_take t
    cases h : jsTrimEnd t with
    | nil =>
      by_cases hc : isJsWs c
      · exact ⟨0, by simp [jsTrimEnd, h, hc]⟩
      · exact ⟨1, by simp [jsTrimEnd, h, hc]⟩
    | cons r rs =>
      refine ⟨m + 1, ?_⟩
      have : jsTrimEnd (c :: t) = c :: jsTrimEnd t := by
        simp only [jsTrimEnd, h]
      rw [this, hm, List.take_succ_cons]

theorem hasSub_of_jsTrimEnd {pat s : Str} (h : hasSub pat (jsTrimEnd s) = true) :
    hasSub pat s = true := by
  obtain ⟨n, hn⟩ := jsTrimEnd_is_take s
  exact hasSub_of_take (hn ▸ h)

theorem hasSub_of_dropWhile {pat : Str} {q : Char → Bool} : ∀ {s : Str},
    hasSub pat (s.dropWhile q) = true → hasSub pat s = true
  | [], h => h
  | c :: t, h => by
    rw [List.dropWhile_cons] at h
    by_cases hq : q c
    · rw [if_pos hq] at h
      exact hasSub_tail (hasSub_of_dropWhile h)
    · rwa [if_neg hq] at h

theorem hasSub_of_jsTrim {pat s : Str} (h : hasSub pat (jsTrim s) = true) :
    hasSub pat s = true :=
  hasSub_of_dropWhile (hasSub_of_jsTrimEnd h)

theorem mem_jsTrimEnd {a : Char} {s : Str} (h : a ∈ jsTrimEnd s) : a ∈ s := by
  obtain ⟨n, hn⟩ := jsTrimEnd_is_take s
  exact List.mem_of_mem_take (hn ▸ h)

theorem mem_jsTrim {a : Char} {s : Str} (h : a ∈ jsTrim s) : a ∈ s :=
  List.Sublist.mem (mem_jsTrimEnd h) (List.dropWhile_sublist _)

theorem mem_splitOnListGo (pat : Str) : ∀ (f : Nat) (s acc p : Str) (a : Char),
    p ∈ splitOnListGo pat f s acc → a ∈ p → a ∈ s ∨ a ∈ acc := by
  intro f
  induction f with
  | zero =>
    intro s acc p a hp ha
    simp only [splitOnListGo, List.mem_singleton] at hp
    subst hp
    rcases List.mem_append.mp ha with h | h
    · exact Or.inr (List.mem_reverse.mp h)
    · exact Or.inl h
  | succ f ih =>
    intro s acc p a hp ha
    by_cases hc : pat ≠ [] ∧ leadsWith pat s = true
    · simp only [splitOnListGo, if_pos hc, List.mem_cons] at hp
      rcases hp with rfl | hp
      · exact Or.inr (List.mem_reverse.mp ha)
      · rcases ih (s.drop pat.length) [] p a hp ha with h | h
        · exact Or.inl (List.mem_of_mem_drop h)
        · exact absurd h (List.not_mem_nil a)
    · cases s with
      | nil =>
        simp only [splitOnListGo, if_neg hc, List.mem_singleton] at hp
        subst hp
        exact Or.inr (List.mem_reverse.mp ha)
      | cons c t =>
        simp only [splitOnListGo, if_neg hc] at hp
        rcases ih t (c :: acc) p a hp ha with h | h
        · exact Or.inl (List.mem_cons_of_mem _ h)
        · rcases List.mem_cons.mp h with rfl | h
          · exact Or.inl (List.mem_cons_self _ _)
          · exact Or.inr h

theorem mem_intercalate (sep : Str) : ∀ (l : List Str) (a : Char),
    a ∈ List.intercalate sep l → a ∈ sep ∨ ∃ p ∈ l, a ∈ p
  | [], a, h => by rw [interc_nil] at h; exact absurd h (List.not_mem_nil a)
  | [p], a, h => by
    rw [interc_single] at h
    exact Or.inr ⟨p, List.mem_singleton_self p, h⟩
  | p :: q :: rest, a, h => by
    rw [interc_cons2] at h
    rcases List.mem_append.mp h with h1 | h2
    · rcases List.mem_append.mp h1 with h3 | h4
      · exact Or.inr ⟨p, List.mem_cons_self _ _, h3⟩
      · exact Or.inl h4
    · rcases mem_intercalate sep (q :: rest) a h2 with h3 | ⟨r, hr, ha⟩
      · exact Or.inl h3
      · exact Or.inr ⟨r, List.mem_cons_of_mem _ hr, ha⟩

theorem mem_jsSplitJoin {pat rep s : Str} {a : Char} (h : a ∈ jsSplitJoin pat rep s) :
    a ∈ rep ∨ a ∈ s := by
  rcases mem_intercalate rep (splitOnList pat s) a h with h1 | ⟨p, hp, ha⟩
  · exact Or.inl h1
  · rcases mem_splitOnListGo pat s.length s [] p a hp ha with h2 | h2
    · exact Or.inr h2
    · exact absurd h2 (List.not_mem_nil a)

/-- A single-character `split(c).join(" ")` is the character substitution
sending `c` to a space. -/
theorem jsSplitJoin_single (c : Char) : ∀ s : Str,
    jsSplitJoin [c] [' '] s = s.map (fun x => if x = c then ' ' else x)
  | [] => by rw [jsSplitJoin_nil]; rfl
  | x :: t => by
    by_cases hx : x = c
    · subst hx
      have hl : leadsWith [x] (x :: t) = true := by simp [leadsWith]
      rw [jsSplitJoin_match [' '] (by simp) hl]
      simp [jsSplitJoin_single x t]
    · have hcx : ¬(c = x) := fun h => hx h.symm
      have hc : ¬(([c] : Str) ≠ [] ∧ leadsWith [c] (x :: t) = true) := by
        simp [leadsWith, hcx]
      rw [jsSplitJoin_cons [' '] x t hc]
      simp [jsSplitJoin_single c t, hx]

theorem not_mem_jsSplitJoin_single {c : Char} (hc : c ≠ ' ') (s : Str) :
    c ∉ jsSplitJoin [c] [' '] s := by
  rw [jsSplitJoin_single]
  intro h
  obtain ⟨y, hy, he⟩ := List.mem_map.mp h
  by_cases hyc : y = c
  · rw [if_pos hyc] at he; exact hc he.symm
  · rw [if_neg hyc] at he; exact hyc he

theorem hasSub_of_leadsWith {pat s : Str} (h : leadsWith pat s = true) :
    hasSub pat s = true := by
  cases s with
  | nil => simpa [hasSub] using h
  | cons c t => simp [hasSub, h]

theorem mem_jsCollapseWsGo : ∀ {s : Str} {prev : Bool} {a : Char},
    a ∈ jsCollapseWsGo prev s → a = ' ' ∨ a ∈ s := by
  intro s
  induction s with
  | nil => intro prev a h; simp [jsCollapseWsGo] at h
  | cons c t ih =>
    intro prev a h
    by_cases hc : isJsWs c
    · cases prev with
      | true =>
        simp only [jsCollapseWsGo, if_pos hc, if_pos rfl] at h
        rcases ih h with h1 | h1
        · exact Or.inl h1
        · exact Or.inr (List.mem_cons_of_mem _ h1)
      | false =>
        simp only [jsCollapseWsGo, if_pos hc, Bool.false_eq_true, if_false] at h
        rcases List.mem_cons.mp h with rfl | h1
        · exact Or.inl rfl
        · rcases ih h1 with h2 | h2
          · exact Or.inl h2
          · exact Or.inr (List.mem_cons_of_mem _ h2)
    · simp only [jsCollapseWsGo, if_neg hc] at h
      rcases List.mem_cons.mp h with rfl | h1
      · exact Or.inr (List.mem_cons_self _ _)
      · rcases ih h1 with h2 | h2
        · exact Or.inl h2
        · exact Or.inr (List.mem_cons_of_mem _ h2)

theorem wsSpace_collapseGo : ∀ {s : Str} {prev : Bool} {a : Char},
    a ∈ jsCollapseWsGo prev s → isJsWs a = true → a = ' ' := by
  intro s
  induction s with
  | nil => intro prev a h _; simp [jsCollapseWsGo] at h
  | cons c t ih =>
    intro prev a h ha
    by_cases hc : isJsWs c
    · cases prev with
      | true =>
        simp only [jsCollapseWsGo, if_pos hc, if_pos rfl] at h
        exact ih h ha
      | false =>
        simp only [jsCollapseWsGo, if_pos hc, Bool.false_eq_true, if_false] at h
        rcases List.mem_cons.mp h with rfl | h1
        · rfl
        · exact ih h1 ha
    · simp only [jsCollapseWsGo, if_neg hc] at h
      rcases List.mem_cons.mp h with rfl | h1
      · exact absurd ha (by simp [hc])
      · exact ih h1 ha

theorem collapseGo_true_head : ∀ {t : Str} {y : Char} {ys : Str},
    jsCollapseWsGo true t = y :: ys → isJsWs y = false
  | [], y, ys, h => by simp [jsCollapseWsGo] at h
  | c :: t, y, ys, h => by
    by_cases hc : isJsWs c
    · simp only [jsCollapseWsGo, if_pos hc, if_pos rfl] at h
      exact collapseGo_true_head h
    · simp only [jsCollapseWsGo, if_neg hc] at h
      obtain ⟨rfl, -⟩ := List.cons.injEq .. ▸ h
      exact eq_false_of_ne_true (fun hy => by simp [hy] at hc)

theorem collapseGo_false_head : ∀ {t : Str} {y : Char} {ys : Str},
    jsCollapseWsGo false t = y :: ys → isJsWs y = false → ∃ t0, t = y :: t0
  | [], y, ys, h, _ => by simp [jsCollapseWsGo] at h
  | c :: t, y, ys, h, hy => by
    by_cases hc : isJsWs c
    · simp only [jsCollapseWsGo, if_pos hc, Bool.false_eq_true, if_false] at h
      obtain ⟨he, -⟩ := List.cons.injEq .. ▸ h
      rw [← he] at hy
      simp [isJsWs] at hy
    · simp only [jsCollapseWsGo, if_neg hc] at h
      obtain ⟨rfl, -⟩ := List.cons.injEq .. ▸ h
      exact ⟨t, rfl⟩

theorem hasWsPair_collapseGo : ∀ (s : Str) (prev : Bool),
    hasWsPair (jsCollapseWsGo prev s) = false := by
  intro s
  induction s with
  | nil => intro prev; simp [jsCollapseWsGo, hasWsPair]
  | cons c t ih =>
    intro prev
    by_cases hc : isJsWs c
    · cases prev with
      | true =>
        simp only [jsCollapseWsGo, if_pos hc, if_pos rfl]
        exact ih true
      | false =>
        simp only [jsCollapseWsGo, if_pos hc, Bool.false_eq_true, if_false]
        cases hg : jsCollapseWsGo true t with
        | nil => simp [hasWsPair]
        | cons y ys =>
          have hy : isJsWs y = false := collapseGo_true_head hg
          have := ih true
          rw [hg] at this
          simp [hasWsPair, hy, this]
    · simp only [jsCollapseWsGo, if_neg hc]
      cases hg : jsCollapseWsGo false t with
      | nil => simp [hasWsPair]
      | cons y ys =>
        have := ih false
        rw [hg] at this
        simp [hasWsPair, hc, this]

theorem leadsWith_single_head : ∀ {b : Char} {l : Str},
    leadsWith [b] l = true → ∃ l', l = b :: l'
  | b, [], h => by simp [leadsWith] at h
  | b, c :: l', h => by
    simp only [leadsWith, Bool.and_eq_true, decide_eq_true_eq] at h
    exact ⟨l', by rw [h.1]⟩

theorem hasSub_pair_map {a b : Char} {f : Char → Char} : ∀ {s : Str},
    hasSub [a, b] (s.map f) = true →
    ∃ x y, f x = a ∧ f y = b ∧ hasSub [x, y] s = true := by
  intro s
  induction s with
  | nil => intro h; simp [hasSub, leadsWith] at h
  | cons c t ih =>
    intro h
    simp only [List.map_cons, hasSub, Bool.or_eq_true] at h
    rcases h with h | h
    · simp only [leadsWith, Bool.and_eq_true, decide_eq_true_eq] at h
      obtain ⟨hfc, hlead⟩ := h
      cases t with
      | nil => simp [leadsWith] at hlead
      | cons d t' =>
        simp only [List.map_cons] at hlead
        simp only [leadsWith, Bool.and_eq_true, decide_eq_true_eq] at hlead
        refine ⟨c, d, hfc.symm, hlead.1.symm, ?_⟩
        apply hasSub_of_leadsWith
        simp [leadsWith]
    · obtain ⟨x, y, hx, hy, hsub⟩ := ih h
      exact ⟨x, y, hx, hy, hasSub_tail hsub⟩

theorem hasSub_pair_collapse {a b : Char} (ha : isJsWs a = false)
    (hb : isJsWs b = false) : ∀ {s : Str} {prev : Bool},
    hasSub [a, b] (jsCollapseWsGo prev s) = true → hasSub [a, b] s = true := by
  intro s
  induction s with
  | nil => intro prev h; simp [jsCollapseWsGo, hasSub, leadsWith] at h
  | cons c t ih =>
    intro prev h
    by_cases hc : isJsWs c
    · cases prev with
      | true =>
        simp only [jsCollapseWsGo, if_pos hc, if_pos rfl] at h
        exact hasSub_tail (ih h)
      | false =>
        simp only [jsCollapseWsGo, if_pos hc, Bool.false_eq_true, if_false] at h
        simp only [hasSub, Bool.or_eq_true] at h
        rcases h with h | h
        · simp only [leadsWith, Bool.and_eq_true, decide_eq_true_eq] at h
          rw [h.1] at ha
          exact absurd ha (by decide)
        · exact hasSub_tail (ih h)
    · simp only [jsCollapseWsGo, if_neg hc] at h
      simp only [hasSub, Bool.or_eq_true] at h ⊢
      rcases h with h | h
      · simp only [leadsWith, Bool.and_eq_true, decide_eq_true_eq] at h
        obtain ⟨hac, hlead⟩ := h
        obtain ⟨ys', hys⟩ := leadsWith_single_head (by simpa [leadsWith] using hlead)
        obtain ⟨t0, ht0⟩ := collapseGo_false_head hys hb
        subst ht0
        exact Or.inl (by simp [leadsWith, hac])
      · exact Or.inr (ih h)

theorem dropWhile_head_false {p : Char → Bool} : ∀ {l : Str} {c : Char} {cs : Str},
    l.dropWhile p = c :: cs → p c = false
  | [], c, cs, h => by simp at h
  | d :: t, c, cs, h => by
    rw [List.dropWhile_cons] at h
    by_cases hd : p d
    · rw [if_pos (by simp [hd])] at h
      exact dropWhile_head_false h
    · rw [if_neg (by simp [hd])] at h
      obtain ⟨rfl, -⟩ := List.cons.injEq .. ▸ h
      exact eq_false_of_ne_true (by simpa using hd)

theorem take_head : ∀ {n : Nat} {l : Str} {c : Char} {cs : Str},
    l.take n = c :: cs → ∃ l', l = c :: l'
  | 0, l, c, cs, h => by simp at h
  | n + 1, [], c, cs, h => by simp at h
  | n + 1, d :: t, c, cs, h => by
    rw [List.take_succ_cons] at h
    obtain ⟨rfl, -⟩ := List.cons.injEq .. ▸ h
    exact ⟨t, rfl⟩

theorem dropWhile_cons_false {p : Char → Bool} {c : Char} {t : Str}
    (h : p c = false) : (c :: t).dropWhile p = c :: t := by
  rw [List.dropWhile_cons, if_neg (by simp [h])]

theorem jsTrimEnd_cons_of_ne_nil {c : Char} {t : Str} (h : jsTrimEnd t ≠ []) :
    jsTrimEnd (c :: t) = c :: jsTrimEnd t := by
  cases ht : jsTrimEnd t with
  | nil => exact absurd ht h
  | cons r rs => simp only [jsTrimEnd, ht]

theorem jsTrimEnd_idem : ∀ s : Str, jsTrimEnd (jsTrimEnd s) = jsTrimEnd s
  | [] => rfl
  | c :: t => by
    cases h : jsTrimEnd t with
    | nil =>
      by_cases hc : isJsWs c
      · simp [jsTrimEnd, h, hc]
      · simp [jsTrimEnd, h, hc]
    | cons r rs =>
      have hne : jsTrimEnd t ≠ [] := by rw [h]; simp
      rw [jsTrimEnd_cons_of_ne_nil hne]
      have h2 : jsTrimEnd (jsTrimEnd t) = jsTrimEnd t := jsTrimEnd_idem t
      rw [jsTrimEnd_cons_of_ne_nil (by rw [h2]; exact hne), h2]

/-- `jsTrim` fixes a string whose head is not whitespace (or which is
empty) and which `jsTrimEnd` fixes. -/
theorem jsTrim_eq_self_of {s : Str}
    (hhead : ∀ c cs, s = c :: cs → isJsWs c = false)
    (hend : jsTrimEnd s = s) : jsTrim s = s := by
  unfold jsTrim
  cases s with
  | nil => rfl
  | cons c cs => rw [dropWhile_cons_false (hhead c cs rfl), hend]

theorem headNonWs_jsTrim {X : Str} {c : Char} {cs : Str}
    (h : jsTrim X = c :: cs) : isJsWs c = false := by
  unfold jsTrim at h
  obtain ⟨n, hn⟩ := jsTrimEnd_is_take (List.dropWhile isJsWs X)
  rw [hn] at h
  obtain ⟨l', hl⟩ := take_head h
  exact dropWhile_head_false hl

theorem jsTrim_idem (s : Str) : jsTrim (jsTrim s) = jsTrim s := by
  refine jsTrim_eq_self_of (fun c cs h => headNonWs_jsTrim h) ?_
  unfold jsTrim
  exact jsTrimEnd_idem _

theorem hasWsPair_of_hasSub {a b : Char} (ha : isJsWs a = true)
    (hb : isJsWs b = true) : ∀ {l : Str}, hasSub [a, b] l = true →
    hasWsPair l = true := by
  intro l
  induction l with
  | nil => intro h; simp [hasSub, leadsWith] at h
  | cons c t ih =>
    intro h
    simp only [hasSub, Bool.or_eq_true] at h
    rcases h with h | h
    · simp only [leadsWith, Bool.and_eq_true, decide_eq_true_eq] at h
      obtain ⟨rfl, hlead⟩ := h
      obtain ⟨l', rfl⟩ := leadsWith_single_head (by simpa [leadsWith] using hlead)
      simp [hasWsPair, ha, hb]
    · have := ih h
      cases t with
      | nil => simp [hasWsPair] at this
      | cons d t' => simp [hasWsPair, this]

theorem exists_hasSub_of_hasWsPair : ∀ {l : Str}, hasWsPair l = true →
    ∃ a b, isJsWs a = true ∧ isJsWs b = true ∧ hasSub [a, b] l = true
  | [], h => by simp [hasWsPair] at h
  | [x], h => by simp [hasWsPair] at h
  | x :: y :: t, h => by
    simp only [hasWsPair, Bool.or_eq_true, Bool.and_eq_true] at h
    rcases h with ⟨hx, hy⟩ | h
    · exact ⟨x, y, hx, hy, hasSub_of_leadsWith (by simp [leadsWith])⟩
    · obtain ⟨a, b, ha, hb, hsub⟩ := exists_hasSub_of_hasWsPair h
      exact ⟨a, b, ha, hb, hasSub_tail hsub⟩

/-- A space-free leading fragment of a split-join output (with space
replacement) is a leading fragment of the input. -/
theorem leadsWith_of_jsSplitJoin_aux {pat : Str} : ∀ (n : Nat) (s p' : Str),
    s.length ≤ n → ' ' ∉ p' → leadsWith p' (jsSplitJoin pat [' '] s) = true →
    leadsWith p' s = true := by
  intro n
  induction n with
  | zero =>
    intro s p' hs hsp h
    have hnil : s = [] := List.eq_nil_of_length_eq_zero (Nat.le_zero.mp hs)
    subst hnil
    rw [jsSplitJoin_nil] at h
    cases p' with
    | nil => rfl
    | cons d ds => simp [leadsWith] at h
  | succ n ih =>
    intro s p' hs hsp h
    by_cases hc : pat ≠ [] ∧ leadsWith pat s = true
    · rw [jsSplitJoin_match [' '] hc.1 hc.2] at h
      cases p' with
      | nil => rfl
      | cons d ds =>
        simp only [List.singleton_append, leadsWith, Bool.and_eq_true,
          decide_eq_true_eq] at h
        have : (' ' : Char) ∈ d :: ds := by
          rw [← h.1]; exact List.mem_cons_self _ _
        exact absurd this hsp
    · cases s with
      | nil =>
        rw [jsSplitJoin_nil] at h
        cases p' with
        | nil => rfl
        | cons d ds => simp [leadsWith] at h
      | cons c t =>
        rw [jsSplitJoin_cons [' '] c t hc] at h
        cases p' with
        | nil => rfl
        | cons d ds =>
          simp only [leadsWith, Bool.and_eq_true, decide_eq_true_eq] at h ⊢
          refine ⟨h.1, ?_⟩
          have hds : ' ' ∉ ds := fun hm => hsp (List.mem_cons_of_mem _ hm)
          exact ih t ds (by simpa using hs) hds h.2

/-- Removing a space-free token leaves no occurrence of that token. -/
theorem hasSub_jsSplitJoin_self_aux {pat : Str} (hp : pat ≠ []) (hsp : ' ' ∉ pat) :
    ∀ (n : Nat) (s : Str), s.length ≤ n →
    hasSub pat (jsSplitJoin pat [' '] s) = false := by
  intro n
  induction n with
  | zero =>
    intro s hs
    have hnil : s = [] := List.eq_nil_of_length_eq_zero (Nat.le_zero.mp hs)
    subst hnil
    rw [jsSplitJoin_nil]
    cases pat with
    | nil => exact absurd rfl hp
    | cons q qs => simp [hasSub, leadsWith]
  | succ n ih =>
    intro s hs
    by_cases hc : pat ≠ [] ∧ leadsWith pat s = true
    · rw [jsSplitJoin_match [' '] hc.1 hc.2]
      have hone : 1 ≤ pat.length := by
        cases pat with
        | nil => exact absurd rfl hp
        | cons q qs => simp
      have hsne : s ≠ [] := leadsWith_ne_nil hc.1 hc.2
      have hone' : 1 ≤ s.length := by
        cases s with
        | nil => exact absurd rfl hsne
        | cons c t => simp
      have hd : (s.drop pat.length).length ≤ n := by
        rw [List.length_drop]; omega
      have hrec := ih (s.drop pat.length) hd
      rw [List.singleton_append]
      have hstep : hasSub pat (' ' :: jsSplitJoin pat [' '] (s.drop pat.length))
          = (leadsWith pat (' ' :: jsSplitJoin pat [' '] (s.drop pat.length))
             || hasSub pat (jsSplitJoin pat [' '] (s.drop pat.length))) := rfl
      rw [hstep, hrec, Bool.or_false]
      cases pat with
      | nil => exact absurd rfl hp
      | cons q qs =>
        have hq : ¬(q = ' ') := fun he => hsp (by rw [← he]; exact List.mem_cons_self q qs)
        simp [leadsWith, hq]
    · cases s with
      | nil =>
        rw [jsSplitJoin_nil]
        cases pat with
        | nil => exact absurd rfl hp
        | cons q qs => simp [hasSub, leadsWith]
      | cons c t =>
        rw [jsSplitJoin_cons [' '] c t hc]
        have hrec := ih t (by simpa using hs)
        simp only [hasSub, hrec, Bool.or_false]
        cases hl : leadsWith pat (c :: jsSplitJoin pat [' '] t) with
        | false => rfl
        | true =>
          exfalso
          cases pat with
          | nil => exact hp rfl
          | cons q qs =>
            simp only [leadsWith, Bool.and_eq_true, decide_eq_true_eq] at hl
            have hqs : ' ' ∉ qs := fun hm => hsp (List.mem_cons_of_mem _ hm)
            have hlt := leadsWith_of_jsSplitJoin_aux t.length t qs le_rfl hqs hl.2
            exact hc ⟨hp, by simp [leadsWith, hl.1, hlt]⟩

theorem hasSub_jsSplitJoin_self {pat : Str} (hp : pat ≠ []) (hsp : ' ' ∉ pat)
    (s : Str) : hasSub pat (jsSplitJoin pat [' '] s) = false :=
  hasSub_jsSplitJoin_self_aux hp hsp s.length s le_rfl

/-- A `##` occurrence survives backwards through a single-character
substitution pass whose replacement is a space. -/
theorem hasSub_hh_subst {d : Char} {X : Str}
    (h : hasSub ['#', '#'] (jsSplitJoin [d] [' '] X) = true) :
    hasSub ['#', '#'] X = true := by
  rw [jsSplitJoin_single] at h
  obtain ⟨x, y, hx, hy, hsub⟩ := hasSub_pair_map h
  have hx' : x = '#' := by
    by_cases hxd : x = d
    · rw [if_pos hxd] at hx; exact absurd hx (by decide)
    · rwa [if_neg hxd] at hx
  have hy' : y = '#' := by
    by_cases hyd : y = d
    · rw [if_pos hyd] at hy; exact absurd hy (by decide)
    · rwa [if_neg hyd] at hy
  rw [hx', hy'] at hsub
  exact hsub

theorem jsTrimEnd_length_le (s : Str) : (jsTrimEnd s).length ≤ s.length := by
  obtain ⟨n, hn⟩ := jsTrimEnd_is_take s
  rw [hn, List.length_take]
  exact min_le_right _ _

/-- The token fold of `normalizeHinweis` under the default configuration,
written as the explicit six-pass chain. -/
theorem tokensChain_eq (X : Str) :
    (getSteuerzeichenTokens defaultModifier).foldl
        (fun acc token => jsSplitJoin token [' '] acc) X
      = jsSplitJoin ['\n'] [' '] (jsSplitJoin ['✓'] [' '] (jsSplitJoin ['*'] [' ']
          (jsSplitJoin ['#', '#'] [' '] (jsSplitJoin ['.', '✓'] [' ']
            (jsSplitJoin ['.', '*'] [' '] X))))) := by
  have tokens_eq : getSteuerzeichenTokens defaultModifier
      = [['.', '*'], ['.', '✓'], ['#', '#'], ['*'], ['✓'], ['\n']] := by decide
  rw [tokens_eq]
  simp only [List.foldl_cons, List.foldl_nil]

/-- `normalizeHinweis` under the default configuration as the explicit
pipeline. -/
theorem normalizeHinweis_default_eq (nfkc : Str → Str) (s : Str) :
    normalizeHinweis nfkc defaultModifier s
      = (if 20 < (jsTrim (jsCollapseWs (jsSplitJoin ['\n'] [' ']
            (jsSplitJoin ['✓'] [' '] (jsSplitJoin ['*'] [' ']
            (jsSplitJoin ['#', '#'] [' '] (jsSplitJoin ['.', '✓'] [' ']
            (jsSplitJoin ['.', '*'] [' ']
              ((nfkc s).map (fun c => if isJsControl c then ' ' else c)))))))))).length
         then jsTrimEnd ((jsTrim (jsCollapseWs (jsSplitJoin ['\n'] [' ']
            (jsSplitJoin ['✓'] [' '] (jsSplitJoin ['*'] [' ']
            (jsSplitJoin ['#', '#'] [' '] (jsSplitJoin ['.', '✓'] [' ']
            (jsSplitJoin ['.', '*'] [' ']
              ((nfkc s).map (fun c => if isJsControl c then ' ' else c)))))))))).take 20)
         else jsTrim (jsCollapseWs (jsSplitJoin ['\n'] [' ']
            (jsSplitJoin ['✓'] [' '] (jsSplitJoin ['*'] [' ']
            (jsSplitJoin ['#', '#'] [' '] (jsSplitJoin ['.', '✓'] [' ']
            (jsSplitJoin ['.', '*'] [' ']
              ((nfkc s).map (fun c => if isJsControl c then ' ' else c)))))))))) := by
  have hr : normalizeHinweis nfkc defaultModifier s
      = (if 20 < (jsTrim (jsCollapseWs
            ((getSteuerzeichenTokens defaultModifier).foldl
              (fun acc token => jsSplitJoin token [' '] acc)
              ((nfkc s).map (fun c => if isJsControl c then ' ' else c))))).length
         then jsTrimEnd ((jsTrim (jsCollapseWs
            ((getSteuerzeichenTokens defaultModifier).foldl
              (fun acc token => jsSplitJoin token [' '] acc)
              ((nfkc s).map (fun c => if isJsControl c then ' ' else c))))).take 20)
         else jsTrim (jsCollapseWs
            ((getSteuerzeichenTokens defaultModifier).foldl
              (fun acc token => jsSplitJoin token [' '] acc)
              ((nfkc s).map (fun c => if isJsControl c then ' ' else c))))) := by
    unfold normalizeHinweis
    rfl
  rw [tokensChain_eq] at hr
  exact hr

/-- The properties of `normalizeHinweis` output under the default
configuration, for any NFKC model: bounded length, no control characters,
none of the status symbols or separator tokens, all whitespace is single
spaces, and the result is trimmed. -/
theorem normalizeHinweis_default_props (nfkc : Str → Str) (s : Str) :
    (normalizeHinweis nfkc defaultModifier s).length ≤ 20 ∧
    (∀ c ∈ normalizeHinweis nfkc defaultModifier s, isJsControl c = false) ∧
    '*' ∉ normalizeHinweis nfkc defaultModifier s ∧
    '✓' ∉ normalizeHinweis nfkc defaultModifier s ∧
    '\n' ∉ normalizeHinweis nfkc defaultModifier s ∧
    hasSub ['#', '#'] (normalizeHinweis nfkc defaultModifier s) = false ∧
    (∀ c ∈ normalizeHinweis nfkc defaultModifier s, isJsWs c = true → c = ' ') ∧
    hasWsPair (normalizeHinweis nfkc defaultModifier s) = false ∧
    jsTrim (normalizeHinweis nfkc defaultModifier s)
      = normalizeHinweis nfkc defaultModifier s := by
  have hr := normalizeHinweis_default_eq nfkc s
  set n0 : Str := (nfkc s).map (fun c => if isJsControl c then ' ' else c) with hn0
  set p1 : Str := jsSplitJoin ['.', '*'] [' '] n0 with hp1
  set p2 : Str := jsSplitJoin ['.', '✓'] [' '] p1 with hp2
  set p3 : Str := jsSplitJoin ['#', '#'] [' '] p2 with hp3
  set p4 : Str := jsSplitJoin ['*'] [' '] p3 with hp4
  set p5 : Str := jsSplitJoin ['✓'] [' '] p4 with hp5
  set n1 : Str := jsSplitJoin ['\n'] [' '] p5 with hn1
  set n2 : Str := jsTrim (jsCollapseWs n1) with hn2
  -- control characters
  have h0ctrl : ∀ c ∈ n0, isJsControl c = false := by
    intro c hc
    rw [hn0] at hc
    obtain ⟨y, hy, he⟩ := List.mem_map.mp hc
    by_cases hy' : isJsControl y
    · rw [if_pos hy'] at he; rw [← he]; decide
    · rw [if_neg hy'] at he; rw [← he]; exact eq_false_of_ne_true hy'
  have step_ctrl : ∀ (tok X : Str), (∀ c ∈ X, isJsControl c = false) →
      ∀ c ∈ jsSplitJoin tok [' '] X, isJsControl c = false := by
    intro tok X hX c hc
    rcases mem_jsSplitJoin hc with h | h
    · rw [List.mem_singleton.mp h]; decide
    · exact hX c h
  have h1ctrl : ∀ c ∈ n1, isJsControl c = false := by
    rw [hn1, hp5, hp4, hp3, hp2, hp1]
    exact step_ctrl _ _ (step_ctrl _ _ (step_ctrl _ _ (step_ctrl _ _
      (step_ctrl _ _ (step_ctrl _ _ h0ctrl)))))
  have h2ctrl : ∀ c ∈ n2, isJsControl c = false := by
    intro c hc
    rw [hn2] at hc
    rcases mem_jsCollapseWsGo (mem_jsTrim hc) with rfl | h
    · decide
    · exact h1ctrl c h
  -- the star symbol
  have h4star : '*' ∉ p4 := by
    rw [hp4]; exact not_mem_jsSplitJoin_single (by decide) p3
  have h5star : '*' ∉ p5 := by
    rw [hp5]; intro h
    rcases mem_jsSplitJoin h with h | h
    · simp at h
    · exact h4star h
  have h1star : '*' ∉ n1 := by
    rw [hn1]; intro h
    rcases mem_jsSplitJoin h with h | h
    · simp at h
    · exact h5star h
  have h2star : '*' ∉ n2 := by
    rw [hn2]; intro h
    rcases mem_jsCollapseWsGo (mem_jsTrim h) with he | h
    · exact absurd he (by decide)
    · exact h1star h
  -- the check-mark symbol
  have h5check : '✓' ∉ p5 := by
    rw [hp5]; exact not_mem_jsSplitJoin_single (by decide) p4
  have h1check : '✓' ∉ n1 := by
    rw [hn1]; intro h
    rcases mem_jsSplitJoin h with h | h
    · simp at h
    · exact h5check h
  have h2check : '✓' ∉ n2 := by
    rw [hn2]; intro h
    rcases mem_jsCollapseWsGo (mem_jsTrim h) with he | h
    · exact absurd he (by decide)
    · exact h1check h
  -- the newline token
  have h1nl : '\n' ∉ n1 := by
    rw [hn1]; exact not_mem_jsSplitJoin_single (by decide) p5
  have h2nl : '\n' ∉ n2 := by
    rw [hn2]; intro h
    rcases mem_jsCollapseWsGo (mem_jsTrim h) with he | h
    · exact absurd he (by decide)
    · exact h1nl h
  -- the double-hash token
  have h3hh : hasSub ['#', '#'] p3 = false := by
    rw [hp3]
    exact hasSub_jsSplitJoin_self (by decide) (by decide) p2
  have h4hh : hasSub ['#', '#'] p4 = false := by
    rw [hp4]
    cases h : hasSub ['#', '#'] (jsSplitJoin ['*'] [' '] p3) with
    | false => rfl
    | true =>
      have hx := hasSub_hh_subst h
      simp [h3hh] at hx
  have h5hh : hasSub ['#', '#'] p5 = false := by
    rw [hp5]
    cases h : hasSub ['#', '#'] (jsSplitJoin ['✓'] [' '] p4) with
    | false => rfl
    | true =>
      have hx := hasSub_hh_subst h
      simp [h4hh] at hx
  have h1hh : hasSub ['#', '#'] n1 = false := by
    rw [hn1]
    cases h : hasSub ['#', '#'] (jsSplitJoin ['\n'] [' '] p5) with
    | false => rfl
    | true =>
      have hx := hasSub_hh_subst h
      simp [h5hh] at hx
  have hchh : hasSub ['#', '#'] (jsCollapseWs n1) = false := by
    cases h : hasSub ['#', '#'] (jsCollapseWs n1) with
    | false => rfl
    | true =>
      have hx := hasSub_pair_collapse (by decide) (by decide) h
      simp [h1hh] at hx
  have h2hh : hasSub ['#', '#'] n2 = false := by
    rw [hn2]
    cases h : hasSub ['#', '#'] (jsTrim (jsCollapseWs n1)) with
    | false => rfl
    | true =>
      have hx := hasSub_of_jsTrim h
      simp [hchh] at hx
  -- whitespace shape
  have h2ws : ∀ c ∈ n2, isJsWs c = true → c = ' ' := by
    intro c hc hw
    rw [hn2] at hc
    exact wsSpace_collapseGo (mem_jsTrim hc) hw
  have h2pair : hasWsPair n2 = false := by
    cases h : hasWsPair n2 with
    | false => rfl
    | true =>
      obtain ⟨a, b, ha, hb, hsub⟩ := exists_hasSub_of_hasWsPair h
      rw [hn2] at hsub
      have hg := hasWsPair_of_hasSub ha hb (hasSub_of_jsTrim hsub)
      have hfalse : hasWsPair (jsCollapseWs n1) = false := hasWsPair_collapseGo n1 false
      simp [hfalse] at hg
  -- trimmedness of n2
  have h2trim : jsTrim n2 = n2 := by
    rw [hn2]; exact jsTrim_idem _
  rw [hr]
  by_cases hlen : 20 < n2.length
  · rw [if_pos hlen]
    set r : Str := jsTrimEnd (n2.take 20) with hrdef
    have hrtake : ∃ m, r = (n2.take 20).take m := by
      obtain ⟨m, hm⟩ := jsTrimEnd_is_take (n2.take 20)
      exact ⟨m, by rw [hrdef, hm]⟩
    have hmemr : ∀ c, c ∈ r → c ∈ n2 := by
      intro c hc
      rw [hrdef] at hc
      exact List.mem_of_mem_take (mem_jsTrimEnd hc)
    have hsubr : ∀ pat : Str, hasSub pat r = true → hasSub pat n2 = true := by
      intro pat hc
      rw [hrdef] at hc
      exact hasSub_of_take (hasSub_of_jsTrimEnd hc)
    refine ⟨?_, ?_, ?_, ?_, ?_, ?_, ?_, ?_, ?_⟩
    · calc r.length ≤ (n2.take 20).length := by rw [hrdef]; exact jsTrimEnd_length_le _
        _ ≤ 20 := by rw [List.length_take]; omega
    · exact fun c hc => h2ctrl c (hmemr c hc)
    · exact fun hc => h2star (hmemr _ hc)
    · exact fun hc => h2check (hmemr _ hc)
    · exact fun hc => h2nl (hmemr _ hc)
    · cases h : hasSub ['#', '#'] r with
      | false => rfl
      | true => have := hsubr _ h; simp [h2hh] at this
    · exact fun c hc hw => h2ws c (hmemr c hc) hw
    · cases h : hasWsPair r with
      | false => rfl
      | true =>
        obtain ⟨a, b, ha, hb, hsub⟩ := exists_hasSub_of_hasWsPair h
        have := hasWsPair_of_hasSub ha hb (hsubr _ hsub)
        simp [h2pair] at this
    · refine jsTrim_eq_self_of ?_ ?_
      · intro c cs hcc
        obtain ⟨m, hm⟩ := hrtake
        rw [hcc] at hm
        obtain ⟨l1, hl1⟩ := take_head hm.symm
        obtain ⟨l2, hl2⟩ := take_head hl1
        rw [hn2] at hl2
        exact headNonWs_jsTrim hl2
      · rw [hrdef]; exact jsTrimEnd_idem _
  · rw [if_neg hlen]
    refine ⟨by omega, h2ctrl, h2star, h2check, h2nl, h2hh, h2ws, h2pair, h2trim⟩

/-- Collection with the flag on keeps every line up to the first
`END:VTODO`, skipping `BEGIN:VTODO` lines. -/
theorem collectVtodoLines_inside : ∀ lines : List Str,
    collectVtodoLines lines true
      = (lines.takeWhile (· ≠ endVtodo)).filter (· ≠ beginVtodo)
  | [] => rfl
  | line :: rest => by
    by_cases hb : line = beginVtodo
    · subst hb
      have hbe : ¬(beginVtodo = endVtodo) := by decide
      simp [collectVtodoLines, List.takeWhile_cons, List.filter_cons, hbe,
        collectVtodoLines_inside rest]
    · by_cases he : line = endVtodo
      · subst he
        have heb : ¬(endVtodo = beginVtodo) := by decide
        simp [collectVtodoLines, List.takeWhile_cons, heb]
      · simp [collectVtodoLines, hb, he, List.takeWhile_cons, List.filter_cons,
          collectVtodoLines_inside rest]

/-- Collection with the flag off equals the claim-side region
characterization. -/
theorem collectVtodoLines_outside : ∀ lines : List Str,
    collectVtodoLines lines false = vtodoRegionLines lines
  | [] => rfl
  | line :: rest => by
    by_cases hb : line = beginVtodo
    · subst hb
      have hbe : ¬(beginVtodo = endVtodo) := by decide
      simp [collectVtodoLines, vtodoRegionLines, List.takeWhile_cons, hbe,
        List.dropWhile_cons, collectVtodoLines_inside rest]
    · by_cases he : line = endVtodo
      · subst he
        simp [collectVtodoLines, vtodoRegionLines, List.takeWhile_cons, hb]
      · simp only [collectVtodoLines, hb, he, if_false,
          collectVtodoLines_outside rest, vtodoRegionLines,
          List.takeWhile_cons, List.dropWhile_cons]
        simp [hb, he]

/-- Removing an absent token is the identity. -/
theorem jsSplitJoin_id_aux {pat rep : Str} : ∀ (n : Nat) (s : Str), s.length ≤ n →
    hasSub pat s = false → jsSplitJoin pat rep s = s := by
  intro n
  induction n with
  | zero =>
    intro s hs _
    have hnil : s = [] := List.eq_nil_of_length_eq_zero (Nat.le_zero.mp hs)
    subst hnil
    exact jsSplitJoin_nil pat rep
  | succ n ih =>
    intro s hs hsub
    by_cases hc : pat ≠ [] ∧ leadsWith pat s = true
    · rw [hasSub_of_leadsWith hc.2] at hsub
      exact absurd hsub (by simp)
    · cases s with
      | nil => exact jsSplitJoin_nil pat rep
      | cons c t =>
        rw [jsSplitJoin_cons rep c t hc]
        have htail : hasSub pat t = false := by
          have : hasSub pat (c :: t) = (leadsWith pat (c :: t) || hasSub pat t) := rfl
          rw [this] at hsub
          exact (Bool.or_eq_false_iff.mp hsub).2
        rw [ih t (by simpa using hs) htail]

theorem jsSplitJoin_id (pat rep : Str) {s : Str} (h : hasSub pat s = false) :
    jsSplitJoin pat rep s = s :=
  jsSplitJoin_id_aux s.length s le_rfl h

/-- The control-character substitution is the identity on strings without
control characters. -/
theorem mapCtrl_id : ∀ {s : Str}, (∀ c ∈ s, isJsControl c = false) →
    s.map (fun c => if isJsControl c then ' ' else c) = s := by
  intro s
  induction s with
  | nil => intro _; rfl
  | cons c t ih =>
    intro h
    simp only [List.map_cons]
    rw [if_neg (by simp [h c (List.mem_cons_self _ _)]),
      ih (fun d hd => h d (List.mem_cons_of_mem _ hd))]

theorem hasWsPair_tail : ∀ {c : Char} {t : Str},
    hasWsPair (c :: t) = false → hasWsPair t = false
  | _, [], _ => rfl
  | c, d :: t', h => by
    simp only [hasWsPair, Bool.or_eq_false_iff] at h
    exact h.2

/-- The two collapse states agree when the head is not whitespace. -/
theorem collapseGo_state_eq : ∀ {t : Str},
    (∀ d t', t = d :: t' → isJsWs d = false) →
    jsCollapseWsGo true t = jsCollapseWsGo false t
  | [], _ => rfl
  | d :: t', h => by
    have hd : isJsWs d = false := h d t' rfl
    simp only [jsCollapseWsGo, hd, Bool.false_eq_true, if_false]

/-- Collapsing is the identity on strings whose whitespace is single
spaces with no whitespace runs. -/
theorem collapseGo_false_id : ∀ (s : Str), (∀ c ∈ s, isJsWs c = true → c = ' ') →
    hasWsPair s = false → jsCollapseWsGo false s = s
  | [], _, _ => rfl
  | c :: t, hws, hpair => by
    have hrec : jsCollapseWsGo false t = t :=
      collapseGo_false_id t (fun d hd hw => hws d (List.mem_cons_of_mem _ hd) hw)
        (hasWsPair_tail hpair)
    by_cases hc : isJsWs c
    · have hceq : c = ' ' := hws c (List.mem_cons_self _ _) hc
      have hthead : ∀ d t', t = d :: t' → isJsWs d = false := by
        intro d t' ht
        subst ht
        simp only [hasWsPair, Bool.or_eq_false_iff, Bool.and_eq_false_iff] at hpair
        rcases hpair.1 with h | h
        · rw [hc] at h; exact absurd h (by simp)
        · exact h
      have hstate : jsCollapseWsGo true t = jsCollapseWsGo false t :=
        collapseGo_state_eq hthead
      simp only [jsCollapseWsGo, if_pos hc, Bool.false_eq_true, if_false]
      rw [hstate, hrec, hceq]
    · simp only [jsCollapseWsGo, if_neg hc]
      rw [hrec]

theorem jsCollapseWs_id {s : Str} (hws : ∀ c ∈ s, isJsWs c = true → c = ' ')
    (hpair : hasWsPair s = false) : jsCollapseWs s = s :=
  collapseGo_false_id s hws hpair

/-- A two-character replacement is the identity when the trigger character
does not occur. -/
theorem repl2_id_head {a : Char} {bs : List Char} {rep : Str} : ∀ {s : Str},
    a ∉ s → repl2 a bs rep s = s
  | [], _ => rfl
  | [_], _ => rfl
  | x :: y :: t, h => by
    have hx : ¬(x = a) := fun he => h (by rw [← he]; exact List.mem_cons_self _ _)
    have hc : ¬(x = a ∧ y ∈ bs) := fun hp => hx hp.1
    simp only [repl2, if_neg hc]
    rw [repl2_id_head (fun hm => h (List.mem_cons_of_mem _ hm))]

theorem splitOnNl_ne_nil : ∀ (s : Str), splitOnNl s ≠ []
  | [] => by simp [splitOnNl]
  | c :: t => by
    simp only [splitOnNl]
    cases h : splitOnNl t with
    | nil => simp
    | cons p ps =>
      by_cases hc : c = '\n'
      · simp [hc]
      · simp [hc]

theorem splitOnNl_no_nl : ∀ {p : Str}, '\n' ∉ p → splitOnNl p = [p]
  | [], _ => rfl
  | c :: t, h => by
    have hc : ¬(c = '\n') := fun he => h (by rw [← he]; exact List.mem_cons_self _ _)
    simp only [splitOnNl, splitOnNl_no_nl (fun hm => h (List.mem_cons_of_mem _ hm))]
    simp [hc]

theorem splitOnNl_append_nl : ∀ {p : Str} (X : Str), '\n' ∉ p →
    splitOnNl (p ++ '\n' :: X) = p :: splitOnNl X
  | [], X, _ => by
    simp only [List.nil_append, splitOnNl]
    cases h : splitOnNl X with
    | nil => exact absurd h (splitOnNl_ne_nil X)
    | cons q qs => simp
  | c :: t, X, h => by
    have hc : ¬(c = '\n') := fun he => h (by rw [← he]; exact List.mem_cons_self _ _)
    have hrec := splitOnNl_append_nl X
      (fun hm => h (List.mem_cons_of_mem c hm))
    simp only [List.cons_append, splitOnNl, List.append_eq]
    rw [hrec]
    simp [hc]

theorem splitOnNl_intercalate : ∀ {lines : List Str}, lines ≠ [] →
    (∀ p ∈ lines, '\n' ∉ p) →
    splitOnNl (List.intercalate ['\n'] lines) = lines
  | [], hne, _ => absurd rfl hne
  | [p], _, h => by
    rw [interc_single]
    exact splitOnNl_no_nl (h p (List.mem_singleton_self p))
  | p :: q :: rest, _, h => by
    rw [interc_cons2, List.append_assoc, List.singleton_append,
      splitOnNl_append_nl _ (h p (List.mem_cons_self _ _)),
      splitOnNl_intercalate (by simp) (fun r hr => h r (List.mem_cons_of_mem _ hr))]

/-- Folding `unfoldStep` over continuation lines appends their contents
(minus the leading space or tab) to the current logical line. -/
theorem unfoldStep_fold : ∀ (ls : List Str) (acc : List Str) (cur : Str),
    (∀ l ∈ ls, ∃ c p, l = c :: p ∧ (c = ' ' ∨ c = '\t')) →
    List.foldl unfoldStep (acc ++ [cur]) ls
      = acc ++ [cur ++ (ls.map (fun l => l.drop 1)).flatten]
  | [], acc, cur, _ => by simp
  | l :: rest, acc, cur, h => by
    obtain ⟨c, p, rfl, hct⟩ := h l (List.mem_cons_self _ _)
    rw [List.foldl_cons]
    have hstart : startsWsOrTab (c :: p) = true := by
      rcases hct with rfl | rfl
      · simp [startsWsOrTab, leadsWith]
      · simp [startsWsOrTab, leadsWith]
    have hstep : unfoldStep (acc ++ [cur]) (c :: p)
        = acc ++ [cur ++ p] := by
      unfold unfoldStep
      rw [if_pos ⟨hstart, by simp⟩, List.dropLast_concat, List.getLastD_concat]
      simp
    rw [hstep, unfoldStep_fold rest acc (cur ++ p)
      (fun l hl => h l (List.mem_cons_of_mem _ hl))]
    simp

/-! ## Claims -/

/-- C7: the claim that text unescaping inverts text escaping fails at the
two-character value backslash-`n`: `escapeIcsText` doubles the backslash,
but `unescapeIcsText` applies its backslash-`n` rule before its doubled
backslash rule, so the value reads back as backslash-newline. -/
theorem c7_escape_unescape_not_inverse :
    unescapeIcsText (escapeIcsText ['\\', 'n']) = ['\\', '\n'] ∧
    unescapeIcsText (escapeIcsText ['\\', 'n']) ≠ ['\\', 'n'] := by
  constructor <;> decide

/-- C2: `updateUnteraufgabeInFile` with an index outside
`[0, number of parsed subtasks)` fails with the descriptive out-of-range
error; no updated file content is produced, so the file is unchanged. -/
theorem c2_update_out_of_range_error (nfkc : Str → Str) (cfg : TaskModifierConfig)
    (nowUtc content : Str) (unteraufgabeIndex : Int) (patch : UnteraufgabePatch)
    (h : unteraufgabeIndex < 0 ∨
      ((parseTaskFromIcsContent nfkc cfg content none).unteraufgaben.length : Int)
        ≤ unteraufgabeIndex) :
    updateUnteraufgabeInFile nfkc cfg nowUtc content unteraufgabeIndex patch
      = .error (errOutOfRange unteraufgabeIndex) := by
  unfold updateUnteraufgabeInFile
  simp only [List.length_map]
  exact if_pos h

/-- C2 witness: index 5 on a file with a single subtask. -/
theorem c2_update_out_of_range_error_witness :
    updateUnteraufgabeInFile id defaultModifier nowStamp c2Content 5 ⟨some true, none⟩
      = .error (errOutOfRange 5) :=
  c2_update_out_of_range_error id defaultModifier nowStamp c2Content 5 ⟨some true, none⟩
    (Or.inr (by decide))

/-- C8: unfolding reconstructs a logical line from its folded physical
lines, where each continuation line is one leading space or tab followed
by the continuation content (physical lines contain no line
terminators). -/
theorem c8_unfold_roundtrip (first : Str) (conts : List (Char × Str))
    (hfirst : ∀ c ∈ first, c ≠ '\n' ∧ c ≠ '\r')
    (hconts : ∀ p ∈ conts, (p.1 = ' ' ∨ p.1 = '\t')
      ∧ ∀ c ∈ p.2, c ≠ '\n' ∧ c ≠ '\r') :
    unfoldIcsLines
        (List.intercalate ['\n'] (first :: conts.map (fun p => p.1 :: p.2)))
      = [first ++ (conts.map Prod.snd).flatten] := by
  have hlineNoNl : ∀ l ∈ (first :: conts.map (fun p => p.1 :: p.2)), '\n' ∉ l := by
    intro l hl
    rcases List.mem_cons.mp hl with rfl | hl
    · exact fun hm => (hfirst '\n' hm).1 rfl
    · obtain ⟨q, hq, rfl⟩ := List.mem_map.mp hl
      intro hm
      rcases List.mem_cons.mp hm with he | hm
      · rcases (hconts q hq).1 with h1 | h1 <;> simp [h1] at he
      · exact ((hconts q hq).2 '\n' hm).1 rfl
  have hnr : '\r' ∉ List.intercalate ['\n'] (first :: conts.map (fun p => p.1 :: p.2)) := by
    intro hm0
    rcases mem_intercalate _ _ _ hm0 with hm1 | ⟨q0, hq0, hm2⟩
    · simp at hm1
    · rcases List.mem_cons.mp hq0 with he0 | hq1
      · rw [he0] at hm2
        exact (hfirst '\r' hm2).2 rfl
      · obtain ⟨q, hq, he1⟩ := List.mem_map.mp hq1
        rw [← he1] at hm2
        rcases List.mem_cons.mp hm2 with he | hm3
        · rcases (hconts q hq).1 with h1 | h1 <;> simp [h1] at he
        · exact ((hconts q hq).2 '\r' hm3).2 rfl
  unfold unfoldIcsLines
  rw [repl2_id_head hnr, splitOnNl_intercalate (by simp) hlineNoNl, List.foldl_cons]
  have h0 : unfoldStep [] first = [first] := by
    simp [unfoldStep]
  rw [h0]
  have hfold := unfoldStep_fold (conts.map (fun p => p.1 :: p.2)) [] first
    (fun l hl => by
      obtain ⟨q, hq, rfl⟩ := List.mem_map.mp hl
      exact ⟨q.1, q.2, rfl, (hconts q hq).1⟩)
  simpa using hfold

/-- C8 witness: a description line folded across two physical lines. -/
theorem c8_unfold_roundtrip_witness :
    unfoldIcsLines
        (List.intercalate ['\n']
          (c8First :: ([(' ', c8Cont)] : List (Char × Str)).map (fun p => p.1 :: p.2)))
      = [c8First ++ (([(' ', c8Cont)] : List (Char × Str)).map Prod.snd).flatten] :=
  c8_unfold_roundtrip c8First [(' ', c8Cont)] (by decide) (by decide)

/-- C5: for every input string (any NFKC model), under the default
configuration the normalized hint has at most 20 characters, contains no
control characters, and contains no literal occurrence of any configured
status symbol. -/
theorem c5_normalize_hint_bounded (nfkc : Str → Str) (s : Str) :
    (normalizeHinweis nfkc defaultModifier s).length ≤ 20 ∧
    (∀ c ∈ normalizeHinweis nfkc defaultModifier s, isJsControl c = false) ∧
    hasSub defaultModifier.nichtBegonnen.freigegeben
        (normalizeHinweis nfkc defaultModifier s) = false ∧
    hasSub defaultModifier.nichtBegonnen.gesperrt
        (normalizeHinweis nfkc defaultModifier s) = false ∧
    hasSub defaultModifier.erledigt.freigegeben
        (normalizeHinweis nfkc defaultModifier s) = false ∧
    hasSub defaultModifier.erledigt.gesperrt
        (normalizeHinweis nfkc defaultModifier s) = false := by
  obtain ⟨hlen, hctrl, hstar, hcheck, hnl, hh, hws, hpair, htrim⟩ :=
    normalizeHinweis_default_props nfkc s
  refine ⟨hlen, hctrl, ?_, ?_, ?_, ?_⟩
  · exact not_hasSub_of_not_mem (by decide) hstar
  · exact not_hasSub_of_not_mem (by decide) hstar
  · exact not_hasSub_of_not_mem (by decide) hcheck
  · exact not_hasSub_of_not_mem (by decide) hcheck

/-- C10: under the default configuration `normalizeHinweis` is idempotent
— given that the abstract NFKC model fixes the already-normalized output
(true of Unicode NFKC) — so the double normalization performed by the
PATCH boundary followed by `updateUnteraufgabeInFile` stores the same
hint as a single normalization. -/
theorem c10_normalize_hint_idempotent (nfkc : Str → Str) (s : Str)
    (hfix : nfkc (normalizeHinweis nfkc defaultModifier s)
      = normalizeHinweis nfkc defaultModifier s) :
    normalizeHinweis nfkc defaultModifier (normalizeHinweis nfkc defaultModifier s)
      = normalizeHinweis nfkc defaultModifier s := by
  obtain ⟨hlen, hctrl, hstar, hcheck, hnl, hh, hws, hpair, htrim⟩ :=
    normalizeHinweis_default_props nfkc s
  rw [normalizeHinweis_default_eq nfkc (normalizeHinweis nfkc defaultModifier s), hfix]
  rw [mapCtrl_id hctrl]
  rw [jsSplitJoin_id ['.', '*'] [' '] (not_hasSub_of_not_mem (by simp) hstar)]
  rw [jsSplitJoin_id ['.', '✓'] [' '] (not_hasSub_of_not_mem (by simp) hcheck)]
  rw [jsSplitJoin_id ['#', '#'] [' '] hh]
  rw [jsSplitJoin_id ['*'] [' '] (not_hasSub_of_not_mem (List.mem_singleton_self '*') hstar)]
  rw [jsSplitJoin_id ['✓'] [' '] (not_hasSub_of_not_mem (List.mem_singleton_self '✓') hcheck)]
  rw [jsSplitJoin_id ['\n'] [' '] (not_hasSub_of_not_mem (List.mem_singleton_self '\n') hnl)]
  rw [jsCollapseWs_id hws hpair, htrim]
  rw [if_neg (by omega)]

/-- C10 witness: the identity NFKC model and a concrete hint. -/
theorem c10_normalize_hint_idempotent_witness :
    normalizeHinweis id defaultModifier (normalizeHinweis id defaultModifier c10Sample)
      = normalizeHinweis id defaultModifier c10Sample :=
  c10_normalize_hint_idempotent id c10Sample rfl

/-- C6: with a category named "Keller" present, `getBereichByBezeichnung`
resolves both "Keller 3" and "Gebäude A - Keller 3" (hyphen-prefix
discard) to the same record as `getBereichByTypNameUndId "Keller" 3`. -/
theorem c6_area_by_label (d : StammdatenBereich)
    (h : ∃ t, recordGet (typByName d) kellerKey = some t) :
    getBereichByBezeichnung d kellerThreeLabel
        = getBereichByTypNameUndId d kellerName 3 ∧
      getBereichByBezeichnung d gebaeudeKellerLabel
        = getBereichByTypNameUndId d kellerName 3 :=
  ⟨rfl, rfl⟩

/-- C6 witness: a dataset with category "Keller" and area (Keller, 3). -/
theorem c6_area_by_label_witness :
    getBereichByBezeichnung c6Daten kellerThreeLabel
        = getBereichByTypNameUndId c6Daten kellerName 3 ∧
      getBereichByBezeichnung c6Daten gebaeudeKellerLabel
        = getBereichByTypNameUndId c6Daten kellerName 3 :=
  c6_area_by_label c6Daten ⟨⟨7, kellerName⟩, rfl⟩

/-- C3 counterexample: for content with a `BEGIN:VTODO` line but no
`END:VTODO` line there is no bounded region (`getVtodoBounds` is `none`),
yet `parseIcsProperties` extracts a non-empty property set, contradicting
the claim. -/
theorem c3_no_region_nonempty_props :
    getVtodoBounds (unfoldIcsLines c3Content) = none ∧
    parseIcsProperties c3Content ≠ [] := by
  constructor <;> decide

/-- C3 (amended): the extracted property set is derived exactly from the
unfolded lines strictly after the first `BEGIN:VTODO` line and strictly
before the first `END:VTODO` line of the whole content (further
`BEGIN:VTODO` lines skipped); it is empty when the first `END:VTODO`
precedes the first `BEGIN:VTODO` or no `BEGIN:VTODO` exists, but when no
`END:VTODO` exists the region extends to the end of the content. -/
theorem c3_props_from_region (content : Str) :
    parseIcsProperties content
      = propsOfLines (vtodoRegionLines (unfoldIcsLines content)) := by
  unfold parseIcsProperties
  rw [collectVtodoLines_outside]

/-- C4 counterexample: on a conformant file that ends with a newline, the
written content ends with two newlines (the final empty unfolded line is
kept and a further newline is appended), contradicting the single
trailing newline of the claim. -/
theorem c4_two_trailing_newlines :
    (writeUnteraufgabenToFile id defaultModifier nowStamp c4Content []).toOption.map
        Prod.fst = some c4Expected ∧
      leadsWith ['\n', '\n'] c4Expected.reverse = true := by
  constructor <;> decide

/-- C4 (amended): for every conformant file the write mutates only the
bounded VTODO region: the unfolded lines up to and including the begin
marker and the unfolded lines from the end marker onward are written back
untouched, the whole file is joined with the newline convention detected
from the original content, and one newline is appended after the final
line. -/
theorem c4_write_frame (nfkc : Str → Str) (cfg : TaskModifierConfig)
    (nowUtc content : Str) (unteraufgaben : List UnteraufgabeUpdateInput)
    (b e : Nat) (h : getVtodoBounds (unfoldIcsLines content) = some (b, e)) :
    ∃ mid task,
      writeUnteraufgabenToFile nfkc cfg nowUtc content unteraufgaben
        = .ok (List.intercalate (detectNewline content)
            ((unfoldIcsLines content).take (b + 1) ++ mid
              ++ (unfoldIcsLines content).drop e)
            ++ detectNewline content, task) := by
  simp only [writeUnteraufgabenToFile, h]
  exact ⟨_, _, rfl⟩

/-- C4 witness: a concrete conformant file with bounds (0, 2). -/
theorem c4_write_frame_witness :
    ∃ mid task,
      writeUnteraufgabenToFile id defaultModifier nowStamp c2Content []
        = .ok (List.intercalate (detectNewline c2Content)
            ((unfoldIcsLines c2Content).take 1 ++ mid
              ++ (unfoldIcsLines c2Content).drop 2)
            ++ detectNewline c2Content, task) :=
  c4_write_frame id defaultModifier nowStamp c2Content [] 0 2 (by decide)

/-- C9: `upsertProperty` replaces the first line whose key (the part
before the first colon, ignoring a semicolon-delimited parameter part,
case-insensitively) matches, with the freshly built plain `KEY:value`
line — so parameters of the original line are discarded — and appends the
line when no line matches. -/
theorem c9_upsert_first_match_or_append (lines : List Str) (key value : Str) :
    (∃ i, i < lines.length ∧
        lineKeyMatches (jsToUpper key) (lines.getD i []) = true ∧
        (∀ j, j < i → lineKeyMatches (jsToUpper key) (lines.getD j []) = false) ∧
        upsertProperty lines key value
          = lines.set i (jsToUpper key ++ ':' :: value)) ∨
      ((∀ line ∈ lines, lineKeyMatches (jsToUpper key) line = false) ∧
        upsertProperty lines key value = lines ++ [jsToUpper key ++ ':' :: value]) := by
  rcases findMatchIdx_spec (lineKeyMatches (jsToUpper key)) lines with
    ⟨i, hfi, hlen, hpi, hprev⟩ | ⟨hfi, hall⟩
  · exact Or.inl ⟨i, hlen, hpi, hprev, by simp [upsertProperty, hfi]⟩
  · exact Or.inr ⟨hall, by simp [upsertProperty, hfi]⟩

theorem dropWhile_ws_cons_length {c : Char} {t : Str} (hc : isJsWs c = true) :
    ((c :: t).dropWhile isJsWs).length ≤ t.length := by
  rw [List.dropWhile_cons, if_pos (by simp [hc])]
  exact List.Sublist.length_le (List.dropWhile_sublist _)

/-- The one-step unfolding of `splitNlWsGo` at a cons, with the two lets
expanded. -/
theorem splitNlWsGo_succ_eq (c : Char) (t : Str) (f : Nat) (acc : Str) :
    splitNlWsGo (f + 1) (c :: t) acc
      = if isJsWs c then
          (if '\n' ∈ (c :: t).takeWhile isJsWs
            then acc.reverse :: splitNlWsGo f ((c :: t).dropWhile isJsWs) []
            else splitNlWsGo f ((c :: t).dropWhile isJsWs)
              (((c :: t).takeWhile isJsWs).reverse ++ acc))
        else splitNlWsGo f t (c :: acc) := rfl

theorem splitNlWsGo_succ_nonws {c : Char} (t : Str) (f : Nat) (acc : Str)
    (hc : isJsWs c = false) :
    splitNlWsGo (f + 1) (c :: t) acc = splitNlWsGo f t (c :: acc) := by
  rw [splitNlWsGo_succ_eq, if_neg (by simp [hc])]

theorem splitNlWsGo_succ_ws_nl {c : Char} (t : Str) (f : Nat) (acc : Str)
    (hc : isJsWs c = true) (hnl : '\n' ∈ (c :: t).takeWhile isJsWs) :
    splitNlWsGo (f + 1) (c :: t) acc
      = acc.reverse :: splitNlWsGo f ((c :: t).dropWhile isJsWs) [] := by
  rw [splitNlWsGo_succ_eq, if_pos hc, if_pos hnl]

theorem splitNlWsGo_succ_ws_nonl {c : Char} (t : Str) (f : Nat) (acc : Str)
    (hc : isJsWs c = true) (hnl : '\n' ∉ (c :: t).takeWhile isJsWs) :
    splitNlWsGo (f + 1) (c :: t) acc
      = splitNlWsGo f ((c :: t).dropWhile isJsWs)
          (((c :: t).takeWhile isJsWs).reverse ++ acc) := by
  rw [splitNlWsGo_succ_eq, if_pos hc, if_neg hnl]

theorem splitNlWsGo_fuel : ∀ (f g : Nat) (s acc : Str),
    s.length ≤ f → s.length ≤ g → splitNlWsGo f s acc = splitNlWsGo g s acc := by
  intro f
  induction f with
  | zero =>
    intro g s acc hf _
    have hs : s = [] := List.eq_nil_of_length_eq_zero (Nat.le_zero.mp hf)
    subst hs
    cases g with
    | zero => rfl
    | succ g => simp [splitNlWsGo]
  | succ f ih =>
    intro g s acc hf hg
    cases g with
    | zero =>
      have hs : s = [] := List.eq_nil_of_length_eq_zero (Nat.le_zero.mp hg)
      subst hs
      simp [splitNlWsGo]
    | succ g =>
      cases s with
      | nil => rfl
      | cons c t =>
        have hf' : t.length ≤ f := by simpa using hf
        have hg' : t.length ≤ g := by simpa using hg
        by_cases hc : isJsWs c = true
        · have hd : ((c :: t).dropWhile isJsWs).length ≤ t.length :=
            dropWhile_ws_cons_length hc
          by_cases hnl : '\n' ∈ (c :: t).takeWhile isJsWs
          · rw [splitNlWsGo_succ_ws_nl t f acc hc hnl,
              splitNlWsGo_succ_ws_nl t g acc hc hnl,
              ih g ((c :: t).dropWhile isJsWs) [] (hd.trans hf') (hd.trans hg')]
          · rw [splitNlWsGo_succ_ws_nonl t f acc hc hnl,
              splitNlWsGo_succ_ws_nonl t g acc hc hnl,
              ih g ((c :: t).dropWhile isJsWs) _ (hd.trans hf') (hd.trans hg')]
        · have hc' : isJsWs c = false := by simpa using hc
          rw [splitNlWsGo_succ_nonws t f acc hc', splitNlWsGo_succ_nonws t g acc hc',
            ih g t (c :: acc) hf' hg']

theorem splitNlWsGo_acc : ∀ (f : Nat) (s acc : Str),
    splitNlWsGo f s acc
      = match splitNlWsGo f s [] with
        | [] => [acc.reverse]
        | p :: ps => (acc.reverse ++ p) :: ps := by
  intro f
  induction f with
  | zero => intro s acc; simp [splitNlWsGo]
  | succ f ih =>
    intro s acc
    cases s with
    | nil => simp [splitNlWsGo]
    | cons c t =>
      by_cases hc : isJsWs c = true
      · by_cases hnl : '\n' ∈ (c :: t).takeWhile isJsWs
        · rw [splitNlWsGo_succ_ws_nl t f acc hc hnl,
            splitNlWsGo_succ_ws_nl t f [] hc hnl]
          simp
        · rw [splitNlWsGo_succ_ws_nonl t f acc hc hnl,
            splitNlWsGo_succ_ws_nonl t f [] hc hnl,
            ih ((c :: t).dropWhile isJsWs) (((c :: t).takeWhile isJsWs).reverse ++ acc),
            ih ((c :: t).dropWhile isJsWs) (((c :: t).takeWhile isJsWs).reverse ++ [])]
          cases splitNlWsGo f ((c :: t).dropWhile isJsWs) [] with
          | nil => simp
          | cons p ps => simp
      · have hc' : isJsWs c = false := by simpa using hc
        rw [splitNlWsGo_succ_nonws t f acc hc', splitNlWsGo_succ_nonws t f [] hc',
          ih t (c :: acc), ih t [c]]
        cases splitNlWsGo f t [] with
        | nil => simp
        | cons p ps => simp

theorem splitNlWsGo_ne_nil : ∀ (f : Nat) (s acc : Str), splitNlWsGo f s acc ≠ [] := by
  intro f
  induction f with
  | zero => intro s acc; simp [splitNlWsGo]
  | succ f ih =>
    intro s acc
    cases s with
    | nil => simp [splitNlWsGo]
    | cons c t =>
      by_cases hc : isJsWs c = true
      · by_cases hnl : '\n' ∈ (c :: t).takeWhile isJsWs
        · rw [splitNlWsGo_succ_ws_nl t f acc hc hnl]; simp
        · rw [splitNlWsGo_succ_ws_nonl t f acc hc hnl]; exact ih _ _
      · have hc' : isJsWs c = false := by simpa using hc
        rw [splitNlWsGo_succ_nonws t f acc hc']; exact ih _ _

theorem splitNlWs_ne_nil (s : Str) : splitNlWs s ≠ [] :=
  splitNlWsGo_ne_nil s.length s []

theorem splitNlWs_nil : splitNlWs [] = [[]] := rfl

/-- Unfolding equation of `splitNlWs` at a non-whitespace head. -/
theorem splitNlWs_cons_nonws {c : Char} {t : Str} (hc : isJsWs c = false) :
    splitNlWs (c :: t)
      = match splitNlWs t with
        | [] => [[c]]
        | p :: ps => (c :: p) :: ps := by
  unfold splitNlWs
  rw [show ((c :: t) : Str).length = t.length + 1 from by simp,
    splitNlWsGo_succ_nonws t t.length [] hc, splitNlWsGo_acc t.length t [c]]
  cases splitNlWsGo t.length t [] with
  | nil => simp
  | cons p ps => simp

/-- Unfolding equation of `splitNlWs` at a whitespace run containing a
newline: the run is a separator. -/
theorem splitNlWs_cons_ws_nl {c : Char} {t : Str} (hc : isJsWs c = true)
    (hnl : '\n' ∈ (c :: t).takeWhile isJsWs) :
    splitNlWs (c :: t) = [] :: splitNlWs ((c :: t).dropWhile isJsWs) := by
  unfold splitNlWs
  rw [show ((c :: t) : Str).length = t.length + 1 from by simp,
    splitNlWsGo_succ_ws_nl t t.length [] hc hnl,
    splitNlWsGo_fuel t.length ((c :: t).dropWhile isJsWs).length
      ((c :: t).dropWhile isJsWs) [] (dropWhile_ws_cons_length hc) le_rfl]
  simp

/-- Unfolding equation of `splitNlWs` at a whitespace run without a
newline: the run stays inside the current piece. -/
theorem splitNlWs_cons_ws_nonl {c : Char} {t : Str} (hc : isJsWs c = true)
    (hnl : '\n' ∉ (c :: t).takeWhile isJsWs) :
    splitNlWs (c :: t)
      = match splitNlWs ((c :: t).dropWhile isJsWs) with
        | [] => [(c :: t).takeWhile isJsWs]
        | p :: ps => ((c :: t).takeWhile isJsWs ++ p) :: ps := by
  unfold splitNlWs
  rw [show ((c :: t) : Str).length = t.length + 1 from by simp,
    splitNlWsGo_succ_ws_nonl t t.length [] hc hnl,
    splitNlWsGo_acc t.length ((c :: t).dropWhile isJsWs)
      (((c :: t).takeWhile isJsWs).reverse ++ []),
    splitNlWsGo_fuel t.length ((c :: t).dropWhile isJsWs).length
      ((c :: t).dropWhile isJsWs) [] (dropWhile_ws_cons_length hc) le_rfl]
  cases splitNlWsGo ((c :: t).dropWhile isJsWs).length ((c :: t).dropWhile isJsWs) [] with
  | nil => simp
  | cons p ps => simp

theorem exists_concat {B : Str} (hB : B ≠ []) : ∃ q d, B = q ++ [d] := by
  cases hrev : B.reverse with
  | nil => exact absurd (by simpa using congrArg List.reverse hrev) hB
  | cons d r =>
    refine ⟨r.reverse, d, ?_⟩
    have hB2 := congrArg List.reverse hrev
    simp only [List.reverse_reverse, List.reverse_cons] at hB2
    exact hB2

theorem concat_last_eq {X Y : Str} {d c : Char} (h : X ++ [d] = Y ++ [c]) :
    d = c := by
  have hr := congrArg List.reverse h
  simp only [List.reverse_append, List.reverse_singleton, List.singleton_append] at hr
  exact (List.cons.injEq .. ▸ hr).1

theorem concat_of_append_concat {A B q : Str} {c : Char}
    (h : A ++ B = q ++ [c]) (hB : B ≠ []) : ∃ q2, B = q2 ++ [c] := by
  obtain ⟨q3, d, rfl⟩ := exists_concat hB
  have h2 : (A ++ q3) ++ [d] = q ++ [c] := by rw [List.append_assoc]; exact h
  have hd : d = c := concat_last_eq h2
  exact ⟨q3, by rw [hd]⟩

theorem jsTrimEnd_append_ws {c : Char} (hc : isJsWs c = true) :
    ∀ X : Str, jsTrimEnd (X ++ [c]) = jsTrimEnd X
  | [] => by simp [jsTrimEnd, hc]
  | x :: X2 => by
    have ih := jsTrimEnd_append_ws hc X2
    simp only [List.cons_append, jsTrimEnd, List.append_eq]
    rw [ih]

theorem jsTrimEnd_eq_self_last : ∀ {X : Str},
    (∀ q c, X = q ++ [c] → isJsWs c = false) → jsTrimEnd X = X
  | [], _ => rfl
  | [x], h => by
    have hx : isJsWs x = false := h [] x rfl
    simp [jsTrimEnd, hx]
  | x :: y :: Y, h => by
    have hrec : ∀ q c, (y :: Y : Str) = q ++ [c] → isJsWs c = false := by
      intro q c hq
      exact h (x :: q) c (by rw [hq]; rfl)
    have ih := jsTrimEnd_eq_self_last hrec
    rw [jsTrimEnd_cons_of_ne_nil (by rw [ih]; exact List.cons_ne_nil y Y), ih]

theorem jsTrimEnd_id_of_trimmed {X : Str} (htr : jsTrim X = X) :
    jsTrimEnd X = X := by
  have h2 : jsTrimEnd (jsTrim X) = jsTrim X := jsTrimEnd_idem (X.dropWhile isJsWs)
  rw [htr] at h2
  exact h2

theorem dropWhile_id_of_trimmed {X : Str} (htr : jsTrim X = X) :
    X.dropWhile isJsWs = X := by
  cases hX : X with
  | nil => rfl
  | cons c cs =>
    rw [hX] at htr
    exact dropWhile_cons_false (headNonWs_jsTrim htr)

theorem lastNonWs_of_trimmed {X : Str} (htr : jsTrim X = X) :
    ∀ q c, X = q ++ [c] → isJsWs c = false := by
  intro q c hq
  by_contra hws
  have hws' : isJsWs c = true := by
    cases hb : isJsWs c with
    | false => exact absurd hb hws
    | true => rfl
  have h1 : jsTrimEnd X = X := jsTrimEnd_id_of_trimmed htr
  rw [hq, jsTrimEnd_append_ws hws'] at h1
  have := jsTrimEnd_length_le q
  rw [h1] at this
  simp at this

theorem jsTrim_eq_self_hl {X : Str}
    (hhead : ∀ c cs, X = c :: cs → isJsWs c = false)
    (hlast : ∀ q c, X = q ++ [c] → isJsWs c = false) : jsTrim X = X :=
  jsTrim_eq_self_of hhead (jsTrimEnd_eq_self_last hlast)

theorem jsTrim_space_cons {X : Str} (htr : jsTrim X = X) :
    jsTrim (' ' :: X) = X := by
  unfold jsTrim
  rw [List.dropWhile_cons, if_pos (by decide), dropWhile_id_of_trimmed htr]
  exact jsTrimEnd_id_of_trimmed htr

theorem takeWhile_append_of_ne_nil {p : Char → Bool} : ∀ {X : Str} (Y : Str),
    X.dropWhile p ≠ [] →
    (X ++ Y).takeWhile p = X.takeWhile p ∧ (X ++ Y).dropWhile p = X.dropWhile p ++ Y
  | [], _, h => absurd rfl h
  | x :: X2, Y, h => by
    by_cases hx : p x = true
    · have hdx : (x :: X2).dropWhile p = X2.dropWhile p := by
        rw [List.dropWhile_cons, if_pos hx]
      rw [hdx] at h
      obtain ⟨ht, hd⟩ := takeWhile_append_of_ne_nil Y h
      constructor
      · rw [List.cons_append, List.takeWhile_cons, if_pos hx, ht,
          List.takeWhile_cons, if_pos hx]
      · rw [List.cons_append, List.dropWhile_cons, if_pos hx, hd, hdx]
    · have hx' : p x = false := by
        cases hb : p x with
        | false => rfl
        | true => exact absurd hb hx
      constructor
      · rw [List.cons_append, List.takeWhile_cons, if_neg (by simp [hx']),
          List.takeWhile_cons, if_neg (by simp [hx'])]
      · rw [List.cons_append, List.dropWhile_cons, if_neg (by simp [hx']),
          List.dropWhile_cons, if_neg (by simp [hx']), List.cons_append]

theorem dropWhile_ws_ne_nil {X : Str} (hne : X ≠ [])
    (hlast : ∀ q c, X = q ++ [c] → isJsWs c = false) :
    X.dropWhile isJsWs ≠ [] := by
  obtain ⟨q, d, rfl⟩ := exists_concat hne
  intro hdrop
  have hall := List.dropWhile_eq_nil_iff.mp hdrop
  have hd : isJsWs d = true := hall d (by simp)
  exact absurd (hlast q d rfl) (by simp [hd])

theorem splitNlWs_single_aux : ∀ (n : Nat) (p : Str), p.length ≤ n →
    '\n' ∉ p → splitNlWs p = [p] := by
  intro n
  induction n with
  | zero =>
    intro p hp _
    rw [List.eq_nil_of_length_eq_zero (Nat.le_zero.mp hp)]
    rfl
  | succ n ih =>
    intro p hp hnl
    cases p with
    | nil => rfl
    | cons c t =>
      by_cases hc : isJsWs c = true
      · have hrun : '\n' ∉ (c :: t).takeWhile isJsWs :=
          fun hm => hnl (List.Sublist.mem hm (List.takeWhile_sublist _))
        rw [splitNlWs_cons_ws_nonl hc hrun]
        have hlen : ((c :: t).dropWhile isJsWs).length ≤ n :=
          le_trans (dropWhile_ws_cons_length hc) (by simpa using hp)
        have hnl2 : '\n' ∉ (c :: t).dropWhile isJsWs :=
          fun hm => hnl (List.Sublist.mem hm (List.dropWhile_sublist _))
        rw [ih _ hlen hnl2]
        simp [List.takeWhile_append_dropWhile]
      · have hc' : isJsWs c = false := by
          cases hb : isJsWs c with
          | false => rfl
          | true => exact absurd hb hc
        rw [splitNlWs_cons_nonws hc']
        have hnl2 : '\n' ∉ t := fun hm => hnl (List.mem_cons_of_mem c hm)
        rw [ih t (by simpa using hp) hnl2]

theorem splitNlWs_single {p : Str} (hnl : '\n' ∉ p) : splitNlWs p = [p] :=
  splitNlWs_single_aux p.length p le_rfl hnl

/-- A lone newline separates an empty piece from the rest, provided the
rest does not begin with whitespace. -/
theorem splitNlWs_glue_nil (T : Str)
    (hT : ∀ d t2, T = d :: t2 → isJsWs d = false) :
    splitNlWs ('\n' :: T) = [] :: splitNlWs T := by
  have hws : isJsWs '\n' = true := by decide
  have hrun : (('\n' :: T) : Str).takeWhile isJsWs = ['\n'] := by
    rw [List.takeWhile_cons, if_pos hws]
    cases T with
    | nil => rfl
    | cons d t2 => rw [List.takeWhile_cons, if_neg (by simp [hT d t2 rfl])]
  have hdrop : (('\n' :: T) : Str).dropWhile isJsWs = T := by
    rw [List.dropWhile_cons, if_pos hws]
    cases T with
    | nil => rfl
    | cons d t2 => exact dropWhile_cons_false (hT d t2 rfl)
  have hnl : '\n' ∈ (('\n' :: T) : Str).takeWhile isJsWs := by rw [hrun]; simp
  rw [splitNlWs_cons_ws_nl hws hnl, hdrop]

theorem splitNlWs_glue_aux : ∀ (n : Nat) (p T : Str), p.length ≤ n →
    '\n' ∉ p → (∀ q c, p = q ++ [c] → isJsWs c = false) →
    (∀ d t2, T = d :: t2 → isJsWs d = false) →
    splitNlWs (p ++ '\n' :: T) = p :: splitNlWs T := by
  intro n
  induction n with
  | zero =>
    intro p T hp _ _ hT
    have hp0 : p = [] := List.eq_nil_of_length_eq_zero (Nat.le_zero.mp hp)
    subst hp0
    simpa using splitNlWs_glue_nil T hT
  | succ n ih =>
    intro p T hp hnl hlast hT
    cases p with
    | nil => simpa using splitNlWs_glue_nil T hT
    | cons c t =>
      by_cases hc : isJsWs c = true
      · have hdne : (c :: t).dropWhile isJsWs ≠ [] :=
          dropWhile_ws_ne_nil (List.cons_ne_nil c t) hlast
        obtain ⟨htake, hdrop⟩ := takeWhile_append_of_ne_nil ('\n' :: T) hdne
        rw [List.cons_append]
        have hrun_eq : ((c :: (t ++ '\n' :: T)) : Str).takeWhile isJsWs
            = (c :: t).takeWhile isJsWs := by
          rw [← List.cons_append]; exact htake
        have hdrop_eq : ((c :: (t ++ '\n' :: T)) : Str).dropWhile isJsWs
            = (c :: t).dropWhile isJsWs ++ '\n' :: T := by
          rw [← List.cons_append]; exact hdrop
        have hrun_nl : '\n' ∉ ((c :: (t ++ '\n' :: T)) : Str).takeWhile isJsWs := by
          rw [hrun_eq]
          exact fun hm => hnl (List.Sublist.mem hm (List.takeWhile_sublist _))
        rw [splitNlWs_cons_ws_nonl hc hrun_nl, hdrop_eq, hrun_eq]
        have hlen : ((c :: t).dropWhile isJsWs).length ≤ n :=
          le_trans (dropWhile_ws_cons_length hc) (by simpa using hp)
        have hnl2 : '\n' ∉ (c :: t).dropWhile isJsWs :=
          fun hm => hnl (List.Sublist.mem hm (List.dropWhile_sublist _))
        have hlast2 : ∀ q d, (c :: t).dropWhile isJsWs = q ++ [d] →
            isJsWs d = false := by
          intro q d hq
          have h0 := List.takeWhile_append_dropWhile isJsWs (c :: t)
          rw [hq, ← List.append_assoc] at h0
          exact hlast _ d h0.symm
        rw [ih ((c :: t).dropWhile isJsWs) T hlen hnl2 hlast2 hT]
        simp [List.takeWhile_append_dropWhile]
      · have hc' : isJsWs c = false := by
          cases hb : isJsWs c with
          | false => rfl
          | true => exact absurd hb hc
        rw [List.cons_append, splitNlWs_cons_nonws hc']
        have hnlt : '\n' ∉ t := fun hm => hnl (List.mem_cons_of_mem c hm)
        have hlastt : ∀ q d, t = q ++ [d] → isJsWs d = false :=
          fun q d hq => hlast (c :: q) d (by rw [hq]; rfl)
        rw [ih t T (by simpa using hp) hnlt hlastt hT]

theorem splitNlWs_glue (p T : Str) (hnl : '\n' ∉ p)
    (hlast : ∀ q c, p = q ++ [c] → isJsWs c = false)
    (hT : ∀ d t2, T = d :: t2 → isJsWs d = false) :
    splitNlWs (p ++ '\n' :: T) = p :: splitNlWs T :=
  splitNlWs_glue_aux p.length p T le_rfl hnl hlast hT

theorem interc_head {d : Char} {q2 : Str} : ∀ {rest : List Str},
    ∃ Z, List.intercalate ['\n'] ((d :: q2) :: rest) = d :: Z
  | [] => ⟨q2, by rw [interc_single]⟩
  | r :: rs =>
    ⟨q2 ++ '\n' :: List.intercalate ['\n'] (r :: rs), by rw [interc_cons2]; simp⟩

theorem interc_lastNonWs : ∀ {ps : List Str}, (∀ p ∈ ps, p ≠ []) →
    (∀ p ∈ ps, ∀ q c, p = q ++ [c] → isJsWs c = false) →
    ∀ q c, List.intercalate ['\n'] ps = q ++ [c] → isJsWs c = false := by
  intro ps
  induction ps with
  | nil =>
    intro _ _ q c h
    rw [interc_nil] at h
    have := congrArg List.length h
    simp at this
  | cons p rest ih =>
    intro hne hlast q c h
    cases rest with
    | nil => rw [interc_single] at h; exact hlast p (by simp) q c h
    | cons r rs =>
      rw [interc_cons2, List.append_assoc, List.singleton_append] at h
      obtain ⟨q2, hq2⟩ := concat_of_append_concat h (List.cons_ne_nil _ _)
      obtain ⟨d, r2, hr⟩ := List.exists_cons_of_ne_nil (hne r (by simp))
      obtain ⟨Z, hZ⟩ : ∃ Z, List.intercalate ['\n'] (r :: rs) = d :: Z := by
        rw [hr]; exact interc_head
      rw [hZ] at hq2
      obtain ⟨q3, hq3⟩ := concat_of_append_concat
        (show ['\n'] ++ (d :: Z) = q2 ++ [c] from by simpa using hq2)
        (List.cons_ne_nil _ _)
      exact ih (fun p2 hp2 => hne p2 (List.mem_cons_of_mem _ hp2))
        (fun p2 hp2 => hlast p2 (List.mem_cons_of_mem _ hp2)) q3 c
        (by rw [hZ, hq3])

/-- `splitNlWs` is a left inverse of joining with a single newline, for
non-empty pieces that contain no newline and neither start nor end with
whitespace. -/
theorem splitNlWs_intercalate : ∀ {segs : List Str},
    (∀ p ∈ segs, p ≠ [] ∧ '\n' ∉ p ∧ (∀ c cs, p = c :: cs → isJsWs c = false) ∧
      (∀ q c, p = q ++ [c] → isJsWs c = false)) →
    segs ≠ [] → splitNlWs (List.intercalate ['\n'] segs) = segs := by
  intro segs
  induction segs with
  | nil => intro _ h; exact absurd rfl h
  | cons p rest ih =>
    intro hfacts _
    cases rest with
    | nil => rw [interc_single, splitNlWs_single (hfacts p (by simp)).2.1]
    | cons r rs =>
      rw [interc_cons2, List.append_assoc, List.singleton_append]
      obtain ⟨hpne, hpnl, hphead, hplast⟩ := hfacts p (by simp)
      have hT : ∀ d t2, List.intercalate ['\n'] (r :: rs) = d :: t2 →
          isJsWs d = false := by
        intro d t2 hd
        obtain ⟨e, r2, hr⟩ := List.exists_cons_of_ne_nil (hfacts r (by simp)).1
        obtain ⟨Z, hZ⟩ : ∃ Z, List.intercalate ['\n'] (r :: rs) = e :: Z := by
          rw [hr]; exact interc_head
        rw [hZ] at hd
        injection hd with h1 h2
        rw [← h1]
        exact (hfacts r (by simp)).2.2.1 e r2 hr
      rw [splitNlWs_glue p (List.intercalate ['\n'] (r :: rs)) hpnl hplast hT,
        ih (fun p2 hp2 => hfacts p2 (List.mem_cons_of_mem _ hp2))
          (List.cons_ne_nil r rs)]

theorem bool_or_elim {x y : Bool} (h : (x || y) = true) :
    x = true ∨ y = true := by
  cases x
  · exact Or.inr (by simpa using h)
  · exact Or.inl rfl

/-- Where a two-character substring of a concatenation can live: inside
the left part, inside the right part, or bridging the seam. -/
theorem hasSub_pair_append {a b : Char} : ∀ {X Y : Str},
    hasSub [a, b] (X ++ Y) = true →
    hasSub [a, b] X = true ∨ hasSub [a, b] Y = true ∨
      ((∃ q, X = q ++ [a]) ∧ leadsWith [b] Y = true)
  | [], Y, h => Or.inr (Or.inl (by simpa using h))
  | x :: X2, Y, h => by
    have h0 : (leadsWith [a, b] (x :: (X2 ++ Y)) || hasSub [a, b] (X2 ++ Y)) = true := h
    rcases bool_or_elim h0 with hlw | hsub
    · simp only [leadsWith, Bool.and_eq_true, decide_eq_true_eq] at hlw
      cases X2 with
      | nil =>
        refine Or.inr (Or.inr ⟨⟨[], ?_⟩, ?_⟩)
        · rw [hlw.1]; rfl
        · simpa using hlw.2
      | cons x2 X3 =>
        refine Or.inl (hasSub_of_leadsWith ?_)
        have hx2 : b = x2 := by
          have := hlw.2
          simp only [leadsWith, Bool.and_eq_true, decide_eq_true_eq] at this
          exact this.1
        simp [leadsWith, hlw.1, hx2]
    · rcases hasSub_pair_append hsub with h1 | h1 | ⟨⟨q, hq⟩, hl⟩
      · exact Or.inl (hasSub_tail h1)
      · exact Or.inr (Or.inl h1)
      · exact Or.inr (Or.inr ⟨⟨x :: q, by rw [hq]; rfl⟩, hl⟩)

/-- Where a two-character substring of a newline join can live: inside a
piece, bridging piece-to-separator, or bridging separator-to-piece. -/
theorem hasSub_pair_intercalate {a b : Char} : ∀ {ps : List Str},
    (∀ p ∈ ps, p ≠ []) →
    hasSub [a, b] (List.intercalate ['\n'] ps) = true →
    (∃ p ∈ ps, hasSub [a, b] p = true) ∨
    (b = '\n' ∧ ∃ p ∈ ps, ∃ q, p = q ++ [a]) ∨
    (a = '\n' ∧ ∃ p ∈ ps, leadsWith [b] p = true) := by
  intro ps
  induction ps with
  | nil => intro _ h; rw [interc_nil] at h; simp [hasSub, leadsWith] at h
  | cons p rest ih =>
    intro hne h
    cases rest with
    | nil => rw [interc_single] at h; exact Or.inl ⟨p, by simp, h⟩
    | cons r rs =>
      rw [interc_cons2, List.append_assoc, List.singleton_append] at h
      rcases hasSub_pair_append h with hp | hy | hbr
      · exact Or.inl ⟨p, by simp, hp⟩
      · have hy0 : (leadsWith [a, b] ('\n' :: List.intercalate ['\n'] (r :: rs))
            || hasSub [a, b] (List.intercalate ['\n'] (r :: rs))) = true := hy
        rcases bool_or_elim hy0 with hlw | hsub
        · simp only [leadsWith, Bool.and_eq_true, decide_eq_true_eq] at hlw
          obtain ⟨e, r2, hr⟩ := List.exists_cons_of_ne_nil (hne r (by simp))
          obtain ⟨Z, hZ⟩ : ∃ Z, List.intercalate ['\n'] (r :: rs) = e :: Z := by
            rw [hr]; exact interc_head
          rw [hZ] at hlw
          have hbe : b = e := by
            have := hlw.2
            simp only [leadsWith, Bool.and_eq_true, decide_eq_true_eq] at this
            exact this.1
          refine Or.inr (Or.inr ⟨hlw.1, r, by simp, ?_⟩)
          rw [hr]
          simp [leadsWith, hbe]
        · rcases ih (fun p2 hp2 => hne p2 (List.mem_cons_of_mem _ hp2)) hsub with
            ⟨p2, hm, h1⟩ | ⟨hb, p2, hm, hq⟩ | ⟨ha, p2, hm, hl⟩
          · exact Or.inl ⟨p2, List.mem_cons_of_mem _ hm, h1⟩
          · exact Or.inr (Or.inl ⟨hb, p2, List.mem_cons_of_mem _ hm, hq⟩)
          · exact Or.inr (Or.inr ⟨ha, p2, List.mem_cons_of_mem _ hm, hl⟩)
      · have hb : b = '\n' := by
          have := hbr.2
          simp only [leadsWith, Bool.and_eq_true, decide_eq_true_eq] at this
          exact this.1
        exact Or.inr (Or.inl ⟨hb, p, by simp, hbr.1⟩)

/-- `repl2` is the identity when the two-character pattern does not occur. -/
theorem repl2_pair_id {a b : Char} {rep : Str} : ∀ {s : Str},
    hasSub [a, b] s = false → repl2 a [b] rep s = s
  | [], _ => rfl
  | [_], _ => rfl
  | x :: y :: t, h => by
    have h0 : (leadsWith [a, b] (x :: y :: t) || hasSub [a, b] (y :: t)) = false := h
    have hlw : leadsWith [a, b] (x :: y :: t) = false := by
      cases hb2 : leadsWith [a, b] (x :: y :: t) with
      | false => rfl
      | true => rw [hb2] at h0; simp at h0
    have hsub : hasSub [a, b] (y :: t) = false := by
      cases hb2 : hasSub [a, b] (y :: t) with
      | false => rfl
      | true => rw [hb2] at h0; simp at h0
    have hcond : ¬(x = a ∧ y ∈ [b]) := by
      rintro ⟨rfl, hy⟩
      have hyb : y = b := List.mem_singleton.mp hy
      subst hyb
      simp [leadsWith] at hlw
    rw [show repl2 a [b] rep (x :: y :: t)
        = (if x = a ∧ y ∈ [b] then rep ++ repl2 a [b] rep t
           else x :: repl2 a [b] rep (y :: t)) from rfl,
      if_neg hcond, repl2_pair_id hsub]

theorem interc_ne_nil2 {segs : List Str} (hne : segs ≠ [])
    (hfst : ∀ p ∈ segs, p ≠ []) : List.intercalate ['\n'] segs ≠ [] := by
  cases segs with
  | nil => exact absurd rfl hne
  | cons p rest =>
    obtain ⟨d, p2, hp⟩ := List.exists_cons_of_ne_nil (hfst p (by simp))
    obtain ⟨Z, hZ⟩ : ∃ Z, List.intercalate ['\n'] (p :: rest) = d :: Z := by
      rw [hp]; exact interc_head
    rw [hZ]
    exact List.cons_ne_nil d Z

/-- Joining non-empty pieces that neither start nor end with whitespace
yields an already-trimmed string. -/
theorem interc_trimmed {segs : List Str}
    (hfacts : ∀ p ∈ segs, p ≠ [] ∧ (∀ c cs, p = c :: cs → isJsWs c = false) ∧
      (∀ q c, p = q ++ [c] → isJsWs c = false)) :
    jsTrim (List.intercalate ['\n'] segs) = List.intercalate ['\n'] segs := by
  apply jsTrim_eq_self_hl
  · intro c cs h
    cases segs with
    | nil => rw [interc_nil] at h; simp at h
    | cons p rest =>
      obtain ⟨d, p2, hp⟩ := List.exists_cons_of_ne_nil (hfacts p (by simp)).1
      obtain ⟨Z, hZ⟩ : ∃ Z, List.intercalate ['\n'] (p :: rest) = d :: Z := by
        rw [hp]; exact interc_head
      rw [hZ] at h
      injection h with h1 _
      rw [← h1]
      exact (hfacts p (by simp)).2.1 d p2 hp
  · exact interc_lastNonWs (fun p hp => (hfacts p hp).1)
      (fun p hp => (hfacts p hp).2.2)

theorem bool_or_false {x y : Bool} (h : (x || y) = false) :
    x = false ∧ y = false := by
  cases x
  · exact ⟨rfl, by simpa using h⟩
  · simp at h

theorem getHinweisSeparator_default :
    getHinweisSeparator defaultModifier = some [' ', '#', '#', ' '] := rfl

theorem statusKandidaten_default :
    statusKandidaten defaultModifier
      = [⟨['.', '*'], false, false⟩, ⟨['.', '✓'], true, false⟩,
         ⟨['*'], false, true⟩, ⟨['✓'], true, true⟩] := by decide

theorem toSymbol_default_cases (st fg : Bool) :
    toSymbol defaultModifier st fg = ['.', '*'] ∨
    toSymbol defaultModifier st fg = ['.', '✓'] ∨
    toSymbol defaultModifier st fg = ['*'] ∨
    toSymbol defaultModifier st fg = ['✓'] := by
  cases st with
  | false =>
    cases fg with
    | false => exact Or.inl rfl
    | true => exact Or.inr (Or.inr (Or.inl rfl))
  | true =>
    cases fg with
    | false => exact Or.inr (Or.inl rfl)
    | true => exact Or.inr (Or.inr (Or.inr rfl))

theorem headNonWs_of_trimmed {X : Str} (htr : jsTrim X = X) :
    ∀ c cs, X = c :: cs → isJsWs c = false := by
  intro c cs h
  rw [h] at htr
  exact headNonWs_jsTrim htr

theorem subIdx_none_of_not_hasSub {pat : Str} : ∀ {s : Str},
    hasSub pat s = false → subIdx pat s = none
  | [], h => by
    have h2 : leadsWith pat ([] : Str) = false := h
    simp [subIdx, h2]
  | c :: t, h => by
    have h0 : (leadsWith pat (c :: t) || hasSub pat t) = false := h
    obtain ⟨hlw, hsub⟩ := bool_or_false h0
    simp [subIdx, hlw, subIdx_none_of_not_hasSub hsub]

theorem hasSub_sep_imp_hh : ∀ {s : Str},
    hasSub [' ', '#', '#', ' '] s = true → hasSub ['#', '#'] s = true
  | [], h => by simp [hasSub, leadsWith] at h
  | c :: t, h => by
    have h0 : (leadsWith [' ', '#', '#', ' '] (c :: t)
        || hasSub [' ', '#', '#', ' '] t) = true := h
    rcases bool_or_elim h0 with hlw | hsub
    · cases t with
      | nil => simp [leadsWith] at hlw
      | cons d t2 =>
        cases t2 with
        | nil => simp [leadsWith] at hlw
        | cons e t3 =>
          simp only [leadsWith, Bool.and_eq_true, decide_eq_true_eq] at hlw
          refine hasSub_tail (hasSub_of_leadsWith ?_)
          simp [leadsWith, ← hlw.2.1, ← hlw.2.2.1]
    · exact hasSub_tail (hasSub_sep_imp_hh hsub)

theorem leadsWith_append_self : ∀ (p X : Str), leadsWith p (p ++ X) = true
  | [], _ => rfl
  | a :: as, X => by simp [leadsWith, leadsWith_append_self as X]

/-- The space-wrapped hint separator cannot begin inside a title free of
`##` when the separator follows it. -/
theorem leadsWith_sep_concat_false {c : Char} {t : Str} (h2 : Str)
    (hns : hasSub ['#', '#'] (c :: t) = false) :
    leadsWith [' ', '#', '#', ' ']
      ((c :: t) ++ (' ' :: '#' :: '#' :: ' ' :: h2)) = false := by
  cases hb : leadsWith [' ', '#', '#', ' ']
      ((c :: t) ++ (' ' :: '#' :: '#' :: ' ' :: h2)) with
  | false => rfl
  | true =>
    exfalso
    cases t with
    | nil =>
      simp only [List.cons_append, List.nil_append, leadsWith,
        Bool.and_eq_true, decide_eq_true_eq] at hb
      exact absurd hb.2.1 (by decide)
    | cons d t2 =>
      cases t2 with
      | nil =>
        simp only [List.cons_append, List.nil_append, leadsWith,
          Bool.and_eq_true, decide_eq_true_eq] at hb
        exact absurd hb.2.2.1 (by decide)
      | cons e t3 =>
        simp only [List.cons_append, leadsWith,
          Bool.and_eq_true, decide_eq_true_eq] at hb
        have hdd : hasSub ['#', '#'] (c :: d :: e :: t3) = true := by
          refine hasSub_tail (hasSub_of_leadsWith ?_)
          simp [leadsWith, ← hb.2.1, ← hb.2.2.1]
        rw [hdd] at hns
        exact Bool.noConfusion hns

/-- `indexOf` finds the space-wrapped hint separator exactly at the end of
a `##`-free title. -/
theorem subIdx_sep_concat : ∀ {titel : Str} (h2 : Str),
    hasSub ['#', '#'] titel = false →
    subIdx [' ', '#', '#', ' '] (titel ++ (' ' :: '#' :: '#' :: ' ' :: h2))
      = some titel.length
  | [], h2, _ => by
    have hlw : leadsWith [' ', '#', '#', ' ']
        ((' ' :: '#' :: '#' :: ' ' :: h2) : Str) = true :=
      leadsWith_append_self [' ', '#', '#', ' '] h2
    simp [subIdx, hlw]
  | c :: t, h2, hns => by
    have h0 : (leadsWith ['#', '#'] (c :: t) || hasSub ['#', '#'] t) = false := hns
    have hns2 : hasSub ['#', '#'] t = false := (bool_or_false h0).2
    have hlw := leadsWith_sep_concat_false h2 hns
    have hrec := subIdx_sep_concat h2 hns2
    rw [List.cons_append]
    rw [show subIdx [' ', '#', '#', ' ']
          (c :: (t ++ (' ' :: '#' :: '#' :: ' ' :: h2)))
        = (if leadsWith [' ', '#', '#', ' ']
              (c :: (t ++ (' ' :: '#' :: '#' :: ' ' :: h2))) = true then some 0
           else (subIdx [' ', '#', '#', ' ']
              (t ++ (' ' :: '#' :: '#' :: ' ' :: h2))).map (· + 1)) from rfl]
    rw [List.cons_append] at hlw
    rw [if_neg (by simp [hlw]), hrec]
    simp

/-- Content with no `##` has no hint part. -/
theorem splitTitel_no_sep (nfkc : Str → Str) {text : Str}
    (hns : hasSub ['#', '#'] text = false) :
    splitTitelUndHinweis nfkc defaultModifier text = ⟨jsTrim text, none⟩ := by
  have hsep : hasSub [' ', '#', '#', ' '] text = false := by
    cases hb : hasSub [' ', '#', '#', ' '] text with
    | false => rfl
    | true => rw [hasSub_sep_imp_hh hb] at hns; exact Bool.noConfusion hns
  unfold splitTitelUndHinweis
  rw [getHinweisSeparator_default]
  simp only [subIdx_none_of_not_hasSub hsep]

/-- Splitting a `##`-free title joined to an already-normalized non-empty
hint by the space-wrapped separator recovers both parts. -/
theorem splitTitel_with_sep (nfkc : Str → Str) {titel h2 : Str}
    (hT : hasSub ['#', '#'] titel = false)
    (hfix : normalizeHinweis nfkc defaultModifier h2 = h2) (hne : h2 ≠ []) :
    splitTitelUndHinweis nfkc defaultModifier
        (titel ++ (' ' :: '#' :: '#' :: ' ' :: h2))
      = ⟨jsTrim titel, some h2⟩ := by
  unfold splitTitelUndHinweis
  rw [getHinweisSeparator_default]
  simp only [subIdx_sep_concat h2 hT]
  have htake : ((titel ++ (' ' :: '#' :: '#' :: ' ' :: h2)) : Str).take titel.length
      = titel := List.take_left titel _
  have hdrop : ((titel ++ (' ' :: '#' :: '#' :: ' ' :: h2)) : Str).drop
      (titel.length + ([' ', '#', '#', ' '] : Str).length) = h2 := by
    rw [show ((' ' :: '#' :: '#' :: ' ' :: h2) : Str)
        = [' ', '#', '#', ' '] ++ h2 from rfl, ← List.append_assoc]
    rw [show titel.length + ([' ', '#', '#', ' '] : Str).length
        = ((titel ++ [' ', '#', '#', ' ']) : Str).length from by simp]
    exact List.drop_left _ _
  rw [htake, hdrop, hfix, if_neg hne]

theorem buildUnteraufgabeText_none {i : UnteraufgabeUpdateInput}
    (hh : i.hinweis = none) :
    buildUnteraufgabeText defaultModifier i = jsTrim i.titel := by
  unfold buildUnteraufgabeText
  rw [getHinweisSeparator_default, hh]
  simp
  rfl

theorem buildUnteraufgabeText_some {i : UnteraufgabeUpdateInput} {h2 : Str}
    (hh : i.hinweis = some h2) (htr2 : jsTrim h2 = h2) (hne : h2 ≠ []) :
    buildUnteraufgabeText defaultModifier i
      = jsTrim i.titel ++ (' ' :: '#' :: '#' :: ' ' :: h2) := by
  unfold buildUnteraufgabeText
  rw [getHinweisSeparator_default, hh]
  simp only [Option.getD_some, htr2, if_neg hne]
  simp [List.append_assoc]

/-- The facts about an already-normalized hint used by the round trip. -/
theorem norm_fix_facts (nfkc : Str → Str) {h2 : Str}
    (hfix : normalizeHinweis nfkc defaultModifier h2 = h2) :
    jsTrim h2 = h2 ∧ '\n' ∉ h2 ∧ hasSub ['#', '#'] h2 = false ∧
    (∀ q c, h2 = q ++ [c] → isJsWs c = false) ∧
    (∀ c cs, h2 = c :: cs → isJsWs c = false) := by
  obtain ⟨-, -, -, -, hnl, hhh, -, -, htrim⟩ := normalizeHinweis_default_props nfkc h2
  rw [hfix] at hnl hhh htrim
  exact ⟨htrim, hnl, hhh, lastNonWs_of_trimmed htrim, headNonWs_of_trimmed htrim⟩

theorem hasSub_pair_cons_elim {a b c : Char} {t : Str} (hne : a ≠ c)
    (h : hasSub [a, b] (c :: t) = true) : hasSub [a, b] t = true := by
  have h0 : (leadsWith [a, b] (c :: t) || hasSub [a, b] t) = true := h
  rcases bool_or_elim h0 with hlw | hs
  · simp only [leadsWith, Bool.and_eq_true, decide_eq_true_eq] at hlw
    exact absurd hlw.1 hne
  · exact hs

theorem lastNonWs_of_concat {Y : Str} {d : Char} (hd : isJsWs d = false) :
    ∀ q c, Y ++ [d] = q ++ [c] → isJsWs c = false := by
  intro q c h
  rw [← concat_last_eq h]
  exact hd

theorem ne_concat_backslash {Y : Str} {d : Char} (hd : d ≠ '\\') :
    ∀ q, Y ++ [d] ≠ q ++ ['\\'] :=
  fun q h => hd (concat_last_eq h)

/-- `parseStatusPrefix` recognizes exactly the leading symbol that
`toSymbol` produced: the candidate list is length-sorted and the four
default symbols are mutually prefix-free. -/
theorem parseStatusPrefix_sym (st fg : Bool) (rest : Str) :
    parseStatusPrefix defaultModifier (toSymbol defaultModifier st fg ++ rest)
      = ⟨toSymbol defaultModifier st fg, st, fg, jsTrim rest⟩ := by
  cases st with
  | false =>
    cases fg with
    | false =>
      show parseStatusPrefix defaultModifier ('.' :: '*' :: rest)
        = ⟨['.', '*'], false, false, jsTrim rest⟩
      unfold parseStatusPrefix
      rw [statusKandidaten_default]
      have h1 : leadsWith ['.', '*'] ('.' :: '*' :: rest) = true := by
        simp [leadsWith]
      simp [List.find?, h1]
    | true =>
      show parseStatusPrefix defaultModifier ('*' :: rest)
        = ⟨['*'], false, true, jsTrim rest⟩
      unfold parseStatusPrefix
      rw [statusKandidaten_default]
      have h1 : leadsWith ['.', '*'] ('*' :: rest) = false := by simp [leadsWith]
      have h2 : leadsWith ['.', '✓'] ('*' :: rest) = false := by simp [leadsWith]
      have h3 : leadsWith ['*'] ('*' :: rest) = true := by simp [leadsWith]
      simp [List.find?, h1, h2, h3]
  | true =>
    cases fg with
    | false =>
      show parseStatusPrefix defaultModifier ('.' :: '✓' :: rest)
        = ⟨['.', '✓'], true, false, jsTrim rest⟩
      unfold parseStatusPrefix
      rw [statusKandidaten_default]
      have h1 : leadsWith ['.', '*'] ('.' :: '✓' :: rest) = false := by
        simp [leadsWith]
      have h2 : leadsWith ['.', '✓'] ('.' :: '✓' :: rest) = true := by
        simp [leadsWith]
      simp [List.find?, h1, h2]
    | true =>
      show parseStatusPrefix defaultModifier ('✓' :: rest)
        = ⟨['✓'], true, true, jsTrim rest⟩
      unfold parseStatusPrefix
      rw [statusKandidaten_default]
      have h1 : leadsWith ['.', '*'] ('✓' :: rest) = false := by simp [leadsWith]
      have h2 : leadsWith ['.', '✓'] ('✓' :: rest) = false := by simp [leadsWith]
      have h3 : leadsWith ['*'] ('✓' :: rest) = false := by simp [leadsWith]
      have h4 : leadsWith ['✓'] ('✓' :: rest) = true := by simp [leadsWith]
      simp [List.find?, h1, h2, h3, h4]

/-- The shape facts shared by the four default status symbols. -/
theorem sym_facts (st fg : Bool) :
    toSymbol defaultModifier st fg ≠ [] ∧
    '\n' ∉ toSymbol defaultModifier st fg ∧
    hasSub ['\\', 'n'] (toSymbol defaultModifier st fg) = false ∧
    (∀ c cs, toSymbol defaultModifier st fg = c :: cs → isJsWs c = false) ∧
    (∀ q c, toSymbol defaultModifier st fg = q ++ [c] → isJsWs c = false) ∧
    (∀ q, toSymbol defaultModifier st fg ≠ q ++ ['\\']) := by
  rcases toSymbol_default_cases st fg with h | h | h | h <;> rw [h]
  · exact ⟨by decide, by decide, by decide,
      fun c cs hc => by injection hc with h1 _; rw [← h1]; decide,
      fun q c hq => @lastNonWs_of_concat ['.'] '*' (by decide) q c hq,
      fun q hq => @ne_concat_backslash ['.'] '*' (by decide) q hq⟩
  · exact ⟨by decide, by decide, by decide,
      fun c cs hc => by injection hc with h1 _; rw [← h1]; decide,
      fun q c hq => @lastNonWs_of_concat ['.'] '✓' (by decide) q c hq,
      fun q hq => @ne_concat_backslash ['.'] '✓' (by decide) q hq⟩
  · exact ⟨by decide, by decide, by decide,
      fun c cs hc => by injection hc with h1 _; rw [← h1]; decide,
      fun q c hq => @lastNonWs_of_concat [] '*' (by decide) q c hq,
      fun q hq => @ne_concat_backslash [] '*' (by decide) q hq⟩
  · exact ⟨by decide, by decide, by decide,
      fun c cs hc => by injection hc with h1 _; rw [← h1]; decide,
      fun q c hq => @lastNonWs_of_concat [] '✓' (by decide) q c hq,
      fun q hq => @ne_concat_backslash [] '✓' (by decide) q hq⟩

theorem headNonWs_append_of {A : Str} (X : Str) (hA : A ≠ [])
    (hhead : ∀ c cs, A = c :: cs → isJsWs c = false) :
    ∀ c cs, A ++ X = c :: cs → isJsWs c = false := by
  intro c cs hc
  obtain ⟨d, ts, hts⟩ := List.exists_cons_of_ne_nil hA
  rw [hts, List.cons_append] at hc
  injection hc with h1 _
  rw [← h1]
  exact hhead d ts hts

theorem lastNonWs_append_concat {A X : Str} (hXne : X ≠ [])
    (hlast : ∀ q c, X = q ++ [c] → isJsWs c = false) :
    ∀ q c, A ++ X = q ++ [c] → isJsWs c = false := by
  intro q c h
  obtain ⟨q2, hq2⟩ := concat_of_append_concat h hXne
  exact hlast q2 c hq2

theorem lastNonWs_cons (e : Char) {inh : Str} (hne : inh ≠ [])
    (hlast : ∀ q c, inh = q ++ [c] → isJsWs c = false) :
    ∀ q c, e :: inh = q ++ [c] → isJsWs c = false := by
  intro q c h
  cases q with
  | nil =>
    injection h with _ h2
    exact absurd h2 hne
  | cons f q3 =>
    injection h with _ h2
    exact hlast q3 c h2

set_option maxHeartbeats 1000000 in
/-- The facts about the per-item content (`buildUnteraufgabeText`) of a
round-trip-suitable input: trimmed, newline-free, backslash-n-free,
split back into exactly the input title and hint, and whitespace-free at
both ends. -/
theorem inh_facts (nfkc : Str → Str) (i : UnteraufgabeUpdateInput)
    (hi : RundreiseTauglich nfkc i) :
    jsTrim (buildUnteraufgabeText defaultModifier i)
        = buildUnteraufgabeText defaultModifier i ∧
    '\n' ∉ buildUnteraufgabeText defaultModifier i ∧
    hasSub ['\\', 'n'] (buildUnteraufgabeText defaultModifier i) = false ∧
    splitTitelUndHinweis nfkc defaultModifier (buildUnteraufgabeText defaultModifier i)
      = ⟨i.titel, i.hinweis⟩ ∧
    (∀ c cs, buildUnteraufgabeText defaultModifier i = c :: cs → isJsWs c = false) ∧
    (∀ q c, buildUnteraufgabeText defaultModifier i = q ++ [c] → isJsWs c = false) := by
  obtain ⟨htr, hhh, hnl, hbn, hrest⟩ := hi
  cases hho : i.hinweis with
  | none =>
    have hb : buildUnteraufgabeText defaultModifier i = i.titel := by
      rw [buildUnteraufgabeText_none hho, htr]
    rw [hb]
    refine ⟨htr, hnl, hbn, ?_, headNonWs_of_trimmed htr, lastNonWs_of_trimmed htr⟩
    rw [splitTitel_no_sep nfkc hhh, htr]
  | some h2 =>
    rw [hho] at hrest
    obtain ⟨hfix, hne2, hbn2, htne⟩ := hrest
    obtain ⟨htr2, hnl2, hhh2, hlast2, hhead2⟩ := norm_fix_facts nfkc hfix
    have hb : buildUnteraufgabeText defaultModifier i
        = i.titel ++ (' ' :: '#' :: '#' :: ' ' :: h2) := by
      rw [buildUnteraufgabeText_some hho htr2 hne2, htr]
    rw [hb]
    have hheadX : ∀ c cs, i.titel ++ (' ' :: '#' :: '#' :: ' ' :: h2) = c :: cs →
        isJsWs c = false :=
      headNonWs_append_of _ htne (headNonWs_of_trimmed htr)
    have l1 := lastNonWs_cons ' ' hne2 hlast2
    have l2 := lastNonWs_cons '#' (List.cons_ne_nil ' ' h2) l1
    have l3 := lastNonWs_cons '#' (List.cons_ne_nil '#' (' ' :: h2)) l2
    have l4 := lastNonWs_cons ' ' (List.cons_ne_nil '#' ('#' :: ' ' :: h2)) l3
    have hlastX : ∀ q c, i.titel ++ (' ' :: '#' :: '#' :: ' ' :: h2) = q ++ [c] →
        isJsWs c = false :=
      lastNonWs_append_concat (List.cons_ne_nil _ _) l4
    refine ⟨jsTrim_eq_self_hl hheadX hlastX, ?_, ?_, ?_, hheadX, hlastX⟩
    · intro hm
      rw [List.mem_append] at hm
      rcases hm with hm | hm
      · exact hnl hm
      · simp only [List.mem_cons] at hm
        rcases hm with h | h | h | h | h
        · exact absurd h (by decide)
        · exact absurd h (by decide)
        · exact absurd h (by decide)
        · exact absurd h (by decide)
        · exact hnl2 h
    · cases hbX : hasSub ['\\', 'n'] (i.titel ++ (' ' :: '#' :: '#' :: ' ' :: h2)) with
      | false => rfl
      | true =>
        exfalso
        rcases hasSub_pair_append hbX with hA | hB | hbr
        · rw [hbn] at hA; exact Bool.noConfusion hA
        · have e1 := hasSub_pair_cons_elim (by decide) hB
          have e2 := hasSub_pair_cons_elim (by decide) e1
          have e3 := hasSub_pair_cons_elim (by decide) e2
          have e4 := hasSub_pair_cons_elim (by decide) e3
          rw [hbn2] at e4
          exact Bool.noConfusion e4
        · exact absurd hbr.2 (by simp [leadsWith])
    · rw [splitTitel_with_sep nfkc hhh hfix hne2, htr]

/-- Shape facts of a `symbol ++ rest` segment. -/
theorem seg_append_facts {sym rest inh : Str}
    (hsym : sym ≠ [] ∧ '\n' ∉ sym ∧ hasSub ['\\', 'n'] sym = false ∧
      (∀ c cs, sym = c :: cs → isJsWs c = false) ∧
      (∀ q c, sym = q ++ [c] → isJsWs c = false) ∧
      (∀ q, sym ≠ q ++ ['\\']))
    (hrest : rest = [] ∨ (rest = ' ' :: inh ∧ inh ≠ []))
    (hinh_nl : '\n' ∉ inh) (hinh_bn : hasSub ['\\', 'n'] inh = false)
    (hinh_last : ∀ q c, inh = q ++ [c] → isJsWs c = false) :
    sym ++ rest ≠ [] ∧ '\n' ∉ sym ++ rest ∧
    (∀ c cs, sym ++ rest = c :: cs → isJsWs c = false) ∧
    (∀ q c, sym ++ rest = q ++ [c] → isJsWs c = false) ∧
    hasSub ['\\', 'n'] (sym ++ rest) = false := by
  obtain ⟨hne, hnl, hbn, hhead, hlast, hbs⟩ := hsym
  refine ⟨?_, ?_, ?_, ?_, ?_⟩
  · obtain ⟨c, cs, hc⟩ := List.exists_cons_of_ne_nil hne
    rw [hc, List.cons_append]
    exact List.cons_ne_nil _ _
  · intro hm
    rw [List.mem_append] at hm
    rcases hm with hm | hm
    · exact hnl hm
    · rcases hrest with rfl | ⟨rfl, -⟩
      · simp at hm
      · simp only [List.mem_cons] at hm
        rcases hm with h | h
        · exact absurd h (by decide)
        · exact hinh_nl h
  · intro c cs hc
    obtain ⟨d, ds, hd⟩ := List.exists_cons_of_ne_nil hne
    rw [hd, List.cons_append] at hc
    injection hc with h1 _
    rw [← h1]
    exact hhead d ds hd
  · intro q c hq
    rcases hrest with rfl | ⟨rfl, hinhne⟩
    · rw [List.append_nil] at hq
      exact hlast q c hq
    · obtain ⟨q2, hq2⟩ := concat_of_append_concat hq (List.cons_ne_nil _ _)
      cases q2 with
      | nil =>
        injection hq2 with _ h2
        exact absurd h2 hinhne
      | cons e q3 =>
        injection hq2 with _ h2
        exact hinh_last q3 c h2
  · cases hb : hasSub ['\\', 'n'] (sym ++ rest) with
    | false => rfl
    | true =>
      exfalso
      rcases hasSub_pair_append hb with hA | hB | hbr
      · rw [hbn] at hA; exact Bool.noConfusion hA
      · rcases hrest with rfl | ⟨rfl, -⟩
        · simp [hasSub, leadsWith] at hB
        · have e1 := hasSub_pair_cons_elim (by decide) hB
          rw [hinh_bn] at e1
          exact Bool.noConfusion e1
      · obtain ⟨q0, hq0⟩ := hbr.1
        exact hbs q0 hq0

/-- The decisive per-item lemma: on a round-trip-suitable input the
parse of the encoded segment recovers status, lock state, title and
hint, and the segment has the shape needed by the split. -/
theorem segment_roundtrip (nfkc : Str → Str) (i : UnteraufgabeUpdateInput)
    (hi : RundreiseTauglich nfkc i) :
    (parseStatusPrefix defaultModifier (segmentOf defaultModifier i)).status
      = i.status ∧
    (parseStatusPrefix defaultModifier (segmentOf defaultModifier i)).freigegeben
      = i.freigegeben.getD true ∧
    splitTitelUndHinweis nfkc defaultModifier
        (parseStatusPrefix defaultModifier (segmentOf defaultModifier i)).inhalt
      = ⟨i.titel, i.hinweis⟩ ∧
    segmentOf defaultModifier i ≠ [] ∧
    '\n' ∉ segmentOf defaultModifier i ∧
    (∀ c cs, segmentOf defaultModifier i = c :: cs → isJsWs c = false) ∧
    (∀ q c, segmentOf defaultModifier i = q ++ [c] → isJsWs c = false) ∧
    hasSub ['\\', 'n'] (segmentOf defaultModifier i) = false := by
  obtain ⟨htrI, hnlI, hbnI, hsplitI, hheadI, hlastI⟩ := inh_facts nfkc i hi
  have hsymf := sym_facts i.status (i.freigegeben.getD true)
  have hseg : segmentOf defaultModifier i
      = toSymbol defaultModifier i.status (i.freigegeben.getD true)
        ++ (if buildUnteraufgabeText defaultModifier i = [] then []
            else ' ' :: buildUnteraufgabeText defaultModifier i) := by
    unfold segmentOf
    by_cases hN : buildUnteraufgabeText defaultModifier i = []
    · rw [hN, if_pos rfl]
      rcases toSymbol_default_cases i.status (i.freigegeben.getD true) with
        h | h | h | h <;> rw [h] <;> decide
    · rw [if_neg hN]
      exact jsTrim_eq_self_hl
        (headNonWs_append_of _ hsymf.1 hsymf.2.2.2.1)
        (lastNonWs_append_concat (List.cons_ne_nil _ _)
          (lastNonWs_cons ' ' hN hlastI))
  have hrest : (if buildUnteraufgabeText defaultModifier i = [] then ([] : Str)
      else ' ' :: buildUnteraufgabeText defaultModifier i) = [] ∨
      ((if buildUnteraufgabeText defaultModifier i = [] then ([] : Str)
        else ' ' :: buildUnteraufgabeText defaultModifier i)
          = ' ' :: buildUnteraufgabeText defaultModifier i ∧
        buildUnteraufgabeText defaultModifier i ≠ []) := by
    by_cases hN : buildUnteraufgabeText defaultModifier i = []
    · exact Or.inl (if_pos hN)
    · exact Or.inr ⟨if_neg hN, hN⟩
  obtain ⟨sh1, sh2, sh3, sh4, sh5⟩ := seg_append_facts hsymf hrest hnlI hbnI hlastI
  have hps := parseStatusPrefix_sym i.status (i.freigegeben.getD true)
    (if buildUnteraufgabeText defaultModifier i = [] then []
     else ' ' :: buildUnteraufgabeText defaultModifier i)
  have hinhalt : (parseStatusPrefix defaultModifier (segmentOf defaultModifier i)).inhalt
      = buildUnteraufgabeText defaultModifier i := by
    rw [hseg, hps]
    show jsTrim (if buildUnteraufgabeText defaultModifier i = [] then []
        else ' ' :: buildUnteraufgabeText defaultModifier i)
      = buildUnteraufgabeText defaultModifier i
    by_cases hN : buildUnteraufgabeText defaultModifier i = []
    · rw [if_pos hN, hN]
      rfl
    · rw [if_neg hN]
      exact jsTrim_space_cons htrI
  refine ⟨?_, ?_, ?_, ?_, ?_, ?_, ?_, ?_⟩
  · rw [hseg, hps]
  · rw [hseg, hps]
  · rw [hinhalt]; exact hsplitI
  · rw [hseg]; exact sh1
  · rw [hseg]; exact sh2
  · rw [hseg]; exact sh3
  · rw [hseg]; exact sh4
  · rw [hseg]; exact sh5

theorem map_id_of_eq {α : Type} {f : α → α} : ∀ {l : List α},
    (∀ a ∈ l, f a = a) → l.map f = l
  | [], _ => rfl
  | x :: t, h => by
    rw [List.map_cons, h x (by simp),
      map_id_of_eq (fun a ha => h a (List.mem_cons_of_mem _ ha))]

theorem map_congr_mem {α β : Type} {f g : α → β} : ∀ {l : List α},
    (∀ a ∈ l, f a = g a) → l.map f = l.map g
  | [], _ => rfl
  | x :: t, h => by
    rw [List.map_cons, List.map_cons, h x (by simp),
      map_congr_mem (fun a ha => h a (List.mem_cons_of_mem _ ha))]

theorem filter_nonempty_id : ∀ {l : List Str},
    (∀ p ∈ l, p ≠ []) → l.filter (· ≠ []) = l
  | [], _ => rfl
  | x :: t, h => by
    rw [List.filter_cons, if_pos (by simpa using h x (by simp)),
      filter_nonempty_id (fun a ha => h a (List.mem_cons_of_mem _ ha))]

theorem buildDesc_eq (L : List UnteraufgabeUpdateInput) :
    buildDescriptionValue defaultModifier L
      = List.intercalate ['\n'] (L.map (segmentOf defaultModifier)) := rfl

set_option maxHeartbeats 1000000 in
/-- C1 (amended): under the default configuration, for every subtask list
whose items are round-trip suitable — titles trimmed and free of `##`,
newlines and literal backslash-`n`; present hints already normalized,
non-empty, free of backslash-`n` and attached to non-empty titles —
decoding the encoded description yields the same
`(done, unlocked, title, hint)` tuples in the same order.  The
unconditional claim is false (`c1_roundtrip_counterexample`). -/
theorem c1_roundtrip_normalized (nfkc : Str → Str)
    (L : List UnteraufgabeUpdateInput)
    (hL : ∀ i ∈ L, RundreiseTauglich nfkc i) :
    (parseUnteraufgaben nfkc defaultModifier
        (buildDescriptionValue defaultModifier L)).map parsedTuple
      = L.map inputTuple := by
  cases L with
  | nil => rfl
  | cons i0 L0 =>
    have hfacts : ∀ p ∈ (i0 :: L0).map (segmentOf defaultModifier),
        p ≠ [] ∧ '\n' ∉ p ∧ (∀ c cs, p = c :: cs → isJsWs c = false) ∧
          (∀ q c, p = q ++ [c] → isJsWs c = false) := by
      intro p hp
      rw [List.mem_map] at hp
      obtain ⟨i, hi, rfl⟩ := hp
      obtain ⟨-, -, -, h4, h5, h6, h7, -⟩ := segment_roundtrip nfkc i (hL i hi)
      exact ⟨h4, h5, h6, h7⟩
    have hne_parts : ∀ p ∈ (i0 :: L0).map (segmentOf defaultModifier), p ≠ [] :=
      fun p hp => (hfacts p hp).1
    have hbnT : hasSub ['\\', 'n'] (List.intercalate ['\n']
        ((i0 :: L0).map (segmentOf defaultModifier))) = false := by
      cases hb : hasSub ['\\', 'n'] (List.intercalate ['\n']
          ((i0 :: L0).map (segmentOf defaultModifier))) with
      | false => rfl
      | true =>
        exfalso
        rcases hasSub_pair_intercalate hne_parts hb with
          ⟨p, hm, hs⟩ | ⟨hbn, -⟩ | ⟨han, -⟩
        · rw [List.mem_map] at hm
          obtain ⟨i, hi, rfl⟩ := hm
          obtain ⟨-, -, -, -, -, -, -, h8⟩ := segment_roundtrip nfkc i (hL i hi)
          rw [h8] at hs
          exact Bool.noConfusion hs
        · exact absurd hbn (by decide)
        · exact absurd han (by decide)
    have hrnT : hasSub ['\r', '\n'] (List.intercalate ['\n']
        ((i0 :: L0).map (segmentOf defaultModifier))) = false := by
      cases hb : hasSub ['\r', '\n'] (List.intercalate ['\n']
          ((i0 :: L0).map (segmentOf defaultModifier))) with
      | false => rfl
      | true =>
        exfalso
        rcases hasSub_pair_intercalate hne_parts hb with
          ⟨p, hm, hs⟩ | ⟨-, p, hm, q, hq⟩ | ⟨han, -⟩
        · exact (hfacts p hm).2.1 (mem_of_hasSub hs (by simp))
        · exact absurd ((hfacts p hm).2.2.2 q '\r' hq) (by decide)
        · exact absurd han (by decide)
    have hinterc_ne : List.intercalate ['\n']
        ((i0 :: L0).map (segmentOf defaultModifier)) ≠ [] :=
      interc_ne_nil2 (by simp) hne_parts
    have htrimT : jsTrim (List.intercalate ['\n']
          ((i0 :: L0).map (segmentOf defaultModifier)))
        = List.intercalate ['\n'] ((i0 :: L0).map (segmentOf defaultModifier)) :=
      interc_trimmed (fun p hp =>
        ⟨(hfacts p hp).1, (hfacts p hp).2.2.1, (hfacts p hp).2.2.2⟩)
    have hsplit : splitNlWs (List.intercalate ['\n']
          ((i0 :: L0).map (segmentOf defaultModifier)))
        = (i0 :: L0).map (segmentOf defaultModifier) :=
      splitNlWs_intercalate hfacts (by simp)
    have hmapTrim : ((i0 :: L0).map (segmentOf defaultModifier)).map jsTrim
        = (i0 :: L0).map (segmentOf defaultModifier) :=
      map_id_of_eq (fun p hp =>
        jsTrim_eq_self_hl (hfacts p hp).2.2.1 (hfacts p hp).2.2.2)
    have hfilter : ((i0 :: L0).map (segmentOf defaultModifier)).filter (· ≠ [])
        = (i0 :: L0).map (segmentOf defaultModifier) :=
      filter_nonempty_id hne_parts
    have hcontains : defaultModifier.descriptionTrennzeichen.contains '\n' = true := by
      decide
    rw [buildDesc_eq]
    unfold parseUnteraufgaben
    simp only [repl2_pair_id hbnT, repl2_pair_id hrnT, htrimT]
    rw [if_neg hinterc_ne, if_pos hcontains, hsplit, hmapTrim, hfilter,
      List.map_map, List.map_map]
    refine map_congr_mem ?_
    intro i hi
    obtain ⟨h1, h2, h3, -, -, -, -, -⟩ := segment_roundtrip nfkc i (hL i hi)
    simp only [Function.comp, parsedTuple, inputTuple, h1, h2, h3]

/-- C1 counterexample: the list `c1Bad` — a single subtask whose hints
are (vacuously) normalized but whose title contains a newline — decodes
to two subtasks, so the unconditional round-trip claim is false. -/
theorem c1_roundtrip_counterexample :
    (parseUnteraufgaben id defaultModifier
        (buildDescriptionValue defaultModifier c1Bad)).map parsedTuple
      ≠ c1Bad.map inputTuple := by
  decide

/-- C1 witness: a concrete round-trip-suitable two-item list (one item
with a hint) on which the amended round trip is exact. -/
theorem c1_roundtrip_normalized_witness :
    (∀ i ∈ c1Good, RundreiseTauglich id i) ∧
    (parseUnteraufgaben id defaultModifier
        (buildDescriptionValue defaultModifier c1Good)).map parsedTuple
      = c1Good.map inputTuple := by
  have hg : ∀ i ∈ c1Good, RundreiseTauglich id i := by
    intro i hi
    rcases List.mem_cons.mp hi with rfl | hi
    · exact ⟨by decide, by decide, by decide, by decide, trivial⟩
    · rcases List.mem_cons.mp hi with rfl | hi
      · exact ⟨by decide, by decide, by decide, by decide, by decide,
          by decide, by decide, by decide⟩
      · exact absurd hi (List.not_mem_nil i)
  exact ⟨hg, c1_roundtrip_normalized id c1Good hg⟩

end HausAufgaben
